import Mathlib

/-!
Verification of the WB-L0 order service core: the bounded LRU cache
(internal/cache/cache.go), the record validator and ingestion pipeline
(internal/consumer/consumer.go), the durable-store upsert
(internal/db/db.go), and the read path (internal/handler/handler.go).

The Go structures from internal/model (the file itself is not under src;
its fields are fully determined by their uses in the validator, the
database layer and the handler) are embedded as Lean structures.  Machine
integers become Int or Nat, time.Time becomes an Int number of seconds,
and the ambient clock read by time.Now is passed as an explicit argument.
-/

/-- Delivery block of an order (internal/model, fields as used in
validateOrder and Database.InsertOrder). -/
structure Delivery where
  name : String
  phone : String
  zip : String
  city : String
  address : String
  region : String
  email : String
  deriving DecidableEq

/-- Payment block of an order. -/
structure Payment where
  transaction : String
  requestID : String
  currency : String
  provider : String
  amount : Int
  paymentDt : Int
  bank : String
  deliveryCost : Int
  goodsTotal : Int
  customFee : Int
  deriving DecidableEq

/-- One product line of an order. -/
structure Item where
  chrtID : Nat
  trackNumber : String
  price : Int
  rid : String
  name : String
  sale : Int
  size : String
  totalPrice : Int
  nmID : Nat
  brand : String
  status : Int
  deriving DecidableEq

/-- The order record ingested from the stream and served by lookups. -/
structure Order where
  orderUID : String
  trackNumber : String
  entry : String
  locale : String
  internalSignature : String
  customerID : String
  deliveryService : String
  shardkey : String
  smID : Int
  dateCreated : Int
  oofShard : String
  delivery : Delivery
  payment : Payment
  items : List Item
  deriving DecidableEq

/-!
Association-list model of the Go map held by the cache.  Keys are kept
unique by construction: lookupA finds the entry for a key, insertA
replaces in place or appends, eraseA removes the first entry for a key
(under unique keys this is exactly the Go delete).
-/

/-- Lookup in the key to order map. -/
def lookupA : List (String × Order) → String → Option Order
  | [], _ => none
  | (k, v) :: m, k' => if k = k' then some v else lookupA m k'

/-- Map insertion: replace the entry in place if the key is present,
append otherwise (position in the list is irrelevant to map semantics). -/
def insertA : List (String × Order) → String → Order → List (String × Order)
  | [], k, v => [(k, v)]
  | (k', v') :: m, k, v =>
    if k' = k then (k, v) :: m else (k', v') :: insertA m k v

/-- Map deletion: remove the first entry carrying the key. -/
def eraseA : List (String × Order) → String → List (String × Order)
  | [], _ => []
  | (k', v') :: m, k => if k' = k then m else (k', v') :: eraseA m k

/-- Keys of the map, in list order. -/
def keysA (m : List (String × Order)) : List String :=
  m.map (·.1)

/-!
Shallow embedding of OrderCache (internal/cache/cache.go).  The doubly
linked recency list plus the key to node index nodeMap are modelled by
the list of node keys in head-to-tail order: addToLRU conses a fresh node
at the head, updateLRU relocates the node registered for the key (always
the first occurrence of the key, which is what nodeMap designates at
every reachable call site) to the head, evictLRU unlinks the tail node
and deletes both map entries for its key.  The mutex only serialises the
operations and has no sequential content.
-/

/-- Cache state: the key to order map, the recency list (head = most
recently used), and the capacity fixed at construction. -/
structure OrderCache where
  orders : List (String × Order)
  lru : List String
  maxSize : Nat
  deriving DecidableEq

/-- cache.New: empty cache with the given capacity. -/
def OrderCache.new (maxSize : Nat) : OrderCache :=
  { orders := [], lru := [], maxSize := maxSize }

/-- addToLRU: a fresh node for the key is linked in at the head. -/
def addToLRU (l : List String) (uid : String) : List String :=
  uid :: l

/-- updateLRU: if the key has a registered node, unlink it and relink it
at the head; the early return when the node already is the head yields
the same list. -/
def updateLRU (l : List String) (uid : String) : List String :=
  if uid ∈ l then uid :: l.erase uid else l

/-- evictLRU: if the recency list is nonempty, drop its tail node and
delete the map entries for the tail key. -/
def OrderCache.evictLRU (c : OrderCache) : OrderCache :=
  match c.lru.getLast? with
  | none => c
  | some t => { c with orders := eraseA c.orders t, lru := c.lru.dropLast }

/-- OrderCache.Get: return the order for the key if resident and mark it
most recently used; no side effect on a miss. -/
def OrderCache.get (c : OrderCache) (uid : String) : Option Order × OrderCache :=
  match lookupA c.orders uid with
  | some o => (some o, { c with lru := updateLRU c.lru uid })
  | none => (none, c)

/-- OrderCache.Set: replace in place when the identifier is resident;
otherwise evict first when the resident count has reached maxSize, then
insert and link a fresh head node. -/
def OrderCache.set (c : OrderCache) (o : Order) : OrderCache :=
  let uid := o.orderUID
  if (lookupA c.orders uid).isSome then
    { c with orders := insertA c.orders uid o, lru := updateLRU c.lru uid }
  else
    let c1 := if c.maxSize ≤ c.orders.length then c.evictLRU else c
    { c1 with orders := insertA c1.orders uid o, lru := addToLRU c1.lru uid }

/-- Loop body of OrderCache.Restore: insert each order and link a head
node for it, stopping once the resident count has reached maxSize. -/
def restoreLoop : OrderCache → List Order → OrderCache
  | c, [] => c
  | c, o :: rest =>
    let c1 := { c with
      orders := insertA c.orders o.orderUID o
      lru := addToLRU c.lru o.orderUID }
    if c.maxSize ≤ c1.orders.length then c1 else restoreLoop c1 rest

/-- OrderCache.Restore: clear the map, the recency list and the node
index, then run the insertion loop over the input sequence. -/
def OrderCache.restore (c : OrderCache) (os : List Order) : OrderCache :=
  restoreLoop { c with orders := [], lru := [] } os

/-- OrderCache.Size: the resident count. -/
def OrderCache.size (c : OrderCache) : Nat :=
  c.orders.length

/-!
Record validator (validateOrder in internal/consumer/consumer.go).  The
ambient clock read through time.Now is the explicit argument now, in
seconds; the Go code compares DateCreated against time.Now().Add(1*time.Minute).
Each branch returns the structured rejection the Go code builds with
fmt.Errorf, encoded as a constructor of ValErr.
-/

/-- The structured rejection signals of validateOrder, one per distinct
error message; badItem carries the 1-based item number reported in the
message. -/
inductive ValErr where
  | futureDate
  | missingOrderUID
  | missingTrackNumber
  | missingEntry
  | missingLocale
  | missingCustomerID
  | missingDeliveryService
  | missingShardkey
  | missingOofShard
  | missingDeliveryFields
  | missingPaymentFields
  | invalidPaymentNumbers
  | noItems
  | badItem (n : Nat)
  deriving DecidableEq

/-- Condition under which the per-item loop of validateOrder rejects an
item. -/
def itemBad (it : Item) : Prop :=
  it.chrtID = 0 ∨ it.trackNumber = "" ∨ it.price ≤ 0 ∨ it.rid = "" ∨
  it.name = "" ∨ it.sale < 0 ∨ it.size = "" ∨ it.totalPrice ≤ 0 ∨
  it.nmID = 0 ∨ it.brand = "" ∨ it.status ≤ 0

instance (it : Item) : Decidable (itemBad it) := by
  unfold itemBad
  infer_instance

/-- Index of the first rejected item, 0-based, mirroring the order of the
range loop in validateOrder. -/
def firstBadItem : List Item → Option Nat
  | [] => none
  | it :: rest =>
    if itemBad it then some 0 else (firstBadItem rest).map (· + 1)

/-- validateOrder: the check chain of internal/consumer/consumer.go, in
source order, returning the first rejection or none. -/
def validateOrder (now : Int) (o : Order) : Option ValErr :=
  if o.dateCreated > now + 60 then some .futureDate
  else if o.orderUID = "" then some .missingOrderUID
  else if o.trackNumber = "" then some .missingTrackNumber
  else if o.entry = "" then some .missingEntry
  else if o.locale = "" then some .missingLocale
  else if o.customerID = "" then some .missingCustomerID
  else if o.deliveryService = "" then some .missingDeliveryService
  else if o.shardkey = "" then some .missingShardkey
  else if o.oofShard = "" then some .missingOofShard
  else if o.delivery.name = "" ∨ o.delivery.phone = "" ∨ o.delivery.zip = "" ∨
      o.delivery.city = "" ∨ o.delivery.address = "" ∨ o.delivery.region = "" ∨
      o.delivery.email = "" then some .missingDeliveryFields
  else if o.payment.transaction = "" ∨ o.payment.currency = "" ∨
      o.payment.provider = "" ∨ o.payment.bank = "" then some .missingPaymentFields
  else if o.payment.amount ≤ 0 ∨ o.payment.paymentDt ≤ 0 ∨
      o.payment.deliveryCost < 0 ∨ o.payment.goodsTotal ≤ 0 ∨
      o.payment.customFee < 0 then some .invalidPaymentNumbers
  else if o.items = [] then some .noItems
  else
    match firstBadItem o.items with
    | some i => some (.badItem (i + 1))
    | none => none

/-!
Durable store (internal/db/db.go).  Each table is the list of its rows in
insertion order; every INSERT carries ON CONFLICT DO NOTHING on the key
named in the query, so insertion appends the row only when no row with
the same key is present.  Database.InsertOrder performs the four inserts
inside one transaction; absent driver failure the transaction commits, so
the error-free semantics is the total function insertOrderDb.  Driver
failure aborts the whole transaction, which the pipeline model renders as
an insert oracle returning none and leaving the store untouched.
-/

/-- Row of the orders table. -/
structure OrdersRow where
  orderUID : String
  trackNumber : String
  entry : String
  locale : String
  internalSignature : String
  customerID : String
  deliveryService : String
  shardkey : String
  smID : Int
  dateCreated : Int
  oofShard : String
  deriving DecidableEq

/-- Row of the delivery table. -/
structure DeliveryRow where
  orderUID : String
  name : String
  phone : String
  zip : String
  city : String
  address : String
  region : String
  email : String
  deriving DecidableEq

/-- Row of the payment table. -/
structure PaymentRow where
  orderUID : String
  transaction : String
  requestID : String
  currency : String
  provider : String
  amount : Int
  paymentDt : Int
  bank : String
  deliveryCost : Int
  goodsTotal : Int
  customFee : Int
  deriving DecidableEq

/-- Row of the items table. -/
structure ItemRow where
  orderUID : String
  chrtID : Nat
  trackNumber : String
  price : Int
  rid : String
  name : String
  sale : Int
  size : String
  totalPrice : Int
  nmID : Nat
  brand : String
  status : Int
  deriving DecidableEq

/-- The four relational tables. -/
structure Store where
  ordersT : List OrdersRow
  deliveryT : List DeliveryRow
  paymentT : List PaymentRow
  itemsT : List ItemRow
  deriving DecidableEq

/-- Insert-or-ignore: append the row unless some present row already hits
the conflict key. -/
def insertOrSkip {α : Type} (hit : α → Bool) (t : List α) (r : α) : List α :=
  if t.any hit then t else t ++ [r]

/-- Conflict key of the items table: the pair of order_uid and chrt_id. -/
def itemHit (uid : String) (ch : Nat) : ItemRow → Bool :=
  fun r => r.orderUID == uid && r.chrtID == ch

/-- The orders row built from an order. -/
def toOrdersRow (o : Order) : OrdersRow :=
  { orderUID := o.orderUID, trackNumber := o.trackNumber, entry := o.entry
    locale := o.locale, internalSignature := o.internalSignature
    customerID := o.customerID, deliveryService := o.deliveryService
    shardkey := o.shardkey, smID := o.smID, dateCreated := o.dateCreated
    oofShard := o.oofShard }

/-- The delivery row built from an order. -/
def toDeliveryRow (o : Order) : DeliveryRow :=
  { orderUID := o.orderUID, name := o.delivery.name, phone := o.delivery.phone
    zip := o.delivery.zip, city := o.delivery.city
    address := o.delivery.address, region := o.delivery.region
    email := o.delivery.email }

/-- The payment row built from an order. -/
def toPaymentRow (o : Order) : PaymentRow :=
  { orderUID := o.orderUID, transaction := o.payment.transaction
    requestID := o.payment.requestID, currency := o.payment.currency
    provider := o.payment.provider, amount := o.payment.amount
    paymentDt := o.payment.paymentDt, bank := o.payment.bank
    deliveryCost := o.payment.deliveryCost, goodsTotal := o.payment.goodsTotal
    customFee := o.payment.customFee }

/-- The items row built from one item of an order. -/
def toItemRow (uid : String) (it : Item) : ItemRow :=
  { orderUID := uid, chrtID := it.chrtID, trackNumber := it.trackNumber
    price := it.price, rid := it.rid, name := it.name, sale := it.sale
    size := it.size, totalPrice := it.totalPrice, nmID := it.nmID
    brand := it.brand, status := it.status }

/-- The per-item insertion loop of Database.InsertOrder: insert-or-ignore
each item row on the composite key, in list order. -/
def itemsFold (uid : String) (t : List ItemRow) (items : List Item) : List ItemRow :=
  items.foldl (fun t2 it => insertOrSkip (itemHit uid it.chrtID) t2 (toItemRow uid it)) t

/-- Database.InsertOrder without driver failure: the orders, delivery and
payment inserts conflict on order_uid, the item inserts conflict on the
pair of order_uid and chrt_id, in source order. -/
def insertOrderDb (s : Store) (o : Order) : Store :=
  let uid := o.orderUID
  { ordersT := insertOrSkip (fun r => r.orderUID == uid) s.ordersT (toOrdersRow o)
    deliveryT := insertOrSkip (fun r => r.orderUID == uid) s.deliveryT (toDeliveryRow o)
    paymentT := insertOrSkip (fun r => r.orderUID == uid) s.paymentT (toPaymentRow o)
    itemsT := itemsFold uid s.itemsT o.items }

/-!
Read path (Handler.GetOrder in internal/handler/handler.go).  The store
fetch GetOrderByUID is modelled as a partial map from identifiers to
orders; the Go handler maps any fetch error to the 404 response, and the
distinguished not-found case is the absent key.  The boolean in the
result records whether the durable store was consulted.
-/

/-- Outcomes of the read path: the JSON document, 400 for a missing
identifier, 404 for a failed fetch. -/
inductive LookupRes where
  | ok (o : Order)
  | badRequest
  | notFound
  deriving DecidableEq

/-- strings.TrimPrefix applied to the request path with the /order/ route
pattern, modelled on the character list so that it evaluates by
computation: when the seven route characters lead the path they are
removed, otherwise the path is returned unchanged. -/
def trimOrderPath (s : String) : String :=
  if ("/order/".data).isPrefixOf s.data then String.mk (s.data.drop 7) else s

/-- Handler.GetOrder: resolve the identifier from the query or the path,
reject an empty identifier, then serve from the cache or fall back to the
store and backfill. -/
def getOrderHandler (store : String → Option Order) (c : OrderCache)
    (queryUID pathStr : String) : LookupRes × OrderCache × Bool :=
  let uid := if queryUID = "" then trimOrderPath pathStr else queryUID
  if uid = "" then (.badRequest, c, false)
  else
    match c.get uid with
    | (some o, c1) => (.ok o, c1, false)
    | (none, c1) =>
      match store uid with
      | some o => (.ok o, c1.set o, true)
      | none => (.notFound, c1, true)

/-!
Ingestion pipeline (consumerHandler.ConsumeClaim in
internal/consumer/consumer.go).  Message decoding through json.Unmarshal
is an external library call and is passed in as the function dec;
persistence is the oracle ins, returning none exactly when the
transaction fails, in which case the store is rolled back unchanged.  The
event list records, in execution order, the durable write, the cache set
and the acknowledgment (session.MarkMessage) performed for the message.
-/

/-- Observable steps of processing one message, in execution order. -/
inductive MsgEv where
  | storeWrite
  | cacheSet
  | ack
  deriving DecidableEq

/-- Loop body of ConsumeClaim for one message: decode failure and
validation failure acknowledge and drop; persistence failure leaves the
message unacknowledged; persistence success writes the store, sets the
cache and acknowledges, in that order. -/
def processMsg (dec : String → Option Order) (ins : Store → Order → Option Store)
    (now : Int) (st : Store) (c : OrderCache) (m : String) :
    Store × OrderCache × List MsgEv :=
  match dec m with
  | none => (st, c, [.ack])
  | some o =>
    match validateOrder now o with
    | some _ => (st, c, [.ack])
    | none =>
      match ins st o with
      | none => (st, c, [])
      | some st1 => (st1, c.set o, [.storeWrite, .cacheSet, .ack])

/-- ConsumeClaim over a batch: each message carries its offset; the
acknowledged offsets are collected in processing order. -/
def runClaim (dec : String → Option Order) (ins : Store → Order → Option Store)
    (now : Int) : Store → OrderCache → List (Nat × String) →
    Store × OrderCache × List Nat
  | st, c, [] => (st, c, [])
  | st, c, (off, m) :: rest =>
    let r := processMsg dec ins now st c m
    let rec' := runClaim dec ins now r.1 r.2.1 rest
    (rec'.1, rec'.2.1, (if MsgEv.ack ∈ r.2.2 then [off] else []) ++ rec'.2.2)

/-!
Concrete records for witnesses and counterexamples.
-/

/-- A delivery block passing every validator check. -/
def dOk : Delivery :=
  { name := "n", phone := "p", zip := "z", city := "c", address := "a"
    region := "r", email := "e" }

/-- A payment block passing every validator check. -/
def pOk : Payment :=
  { transaction := "t", requestID := "", currency := "RUB", provider := "pr"
    amount := 100, paymentDt := 1, bank := "b", deliveryCost := 0
    goodsTotal := 100, customFee := 0 }

/-- An item passing every validator check. -/
def itOk : Item :=
  { chrtID := 1, trackNumber := "tn", price := 10, rid := "rid", name := "nm"
    sale := 0, size := "0", totalPrice := 10, nmID := 2, brand := "br"
    status := 202 }

/-- A fully valid order with the given identifier. -/
def mkOrder (uid : String) : Order :=
  { orderUID := uid, trackNumber := "tn", entry := "WBIL", locale := "en"
    internalSignature := "", customerID := "cust", deliveryService := "meest"
    shardkey := "9", smID := 99, dateCreated := 0, oofShard := "1"
    delivery := dOk, payment := pOk, items := [itOk] }

/-- Shorthand orders used across witnesses. -/
def oA : Order := mkOrder "A"

/-- Second concrete order. -/
def oB : Order := mkOrder "B"

/-- Third concrete order. -/
def oC : Order := mkOrder "C"

/-- Fourth concrete order. -/
def oD : Order := mkOrder "D"

/-!
Structural invariant of the cache: the recency list carries no duplicate
nodes and its nodes are exactly the resident keys, and the map keys are
unique.  This is the exactly-one-node-per-resident-key invariant of the
specification.
-/

/-- Well-formedness of a cache state. -/
def Wf (c : OrderCache) : Prop :=
  c.lru.Nodup ∧ (∀ k, k ∈ c.lru ↔ (lookupA c.orders k).isSome) ∧
    (keysA c.orders).Nodup

/-!
Operation traces.  A sequence of Get and Set calls on one cache is a list
of CacheOp values; runOps executes it from the freshly constructed cache.
The recency claim is stated against the trace itself: the key touched by
an operation is its argument identifier, and touchedAge gives the
distance from the end of the trace to the latest touch of a key, so a
smaller age means more recently touched (a Get of an absent key counts as
a touch here, but an absent key can only become resident again through a
later Set, so on resident keys this coincides with touches by Get hits
and Sets).
-/

/-- One cache call. -/
inductive CacheOp where
  | get (uid : String)
  | set (o : Order)

/-- The identifier an operation touches. -/
def opKey : CacheOp → String
  | .get uid => uid
  | .set o => o.orderUID

/-- Execute one call, keeping the state. -/
def stepOp (c : OrderCache) : CacheOp → OrderCache
  | .get uid => (c.get uid).2
  | .set o => c.set o

/-- Execute a trace from the fresh cache of the given capacity. -/
def runOps (cap : Nat) (t : List CacheOp) : OrderCache :=
  t.foldl stepOp (OrderCache.new cap)

/-- Position of the latest touch of a key, counted from the front of the
reversed trace. -/
def lastAge : List CacheOp → String → Option Nat
  | [], _ => none
  | op :: rest, k => if opKey op = k then some 0 else (lastAge rest k).map (· + 1)

/-- Age of the latest touch of a key in a trace: 0 means touched by the
final operation; none means never touched. -/
def touchedAge (t : List CacheOp) (k : String) : Option Nat :=
  lastAge t.reverse k

/-- Total version of touchedAge; untouched keys get the trace length,
strictly older than every touch. -/
def ageD (t : List CacheOp) (k : String) : Nat :=
  (touchedAge t k).getD t.length

/-- Recency invariant relative to a trace: every listed key has been
touched, and the recency list is strictly sorted by age of latest touch,
most recent first. -/
def AgeInv (t : List CacheOp) (c : OrderCache) : Prop :=
  (∀ k ∈ c.lru, (touchedAge t k).isSome) ∧
    c.lru.Pairwise (fun a b => ageD t a < ageD t b)

/-- One cache call including Restore, for mixed-call traces. -/
inductive CacheCall where
  | get (uid : String)
  | set (o : Order)
  | restore (os : List Order)

/-- Execute one mixed call. -/
def stepCall (c : OrderCache) : CacheCall → OrderCache
  | .get uid => (c.get uid).2
  | .set o => c.set o
  | .restore os => c.restore os

/-- Execute a mixed-call trace from the fresh cache. -/
def runCalls (cap : Nat) (t : List CacheCall) : OrderCache :=
  t.foldl stepCall (OrderCache.new cap)

/-- Trace of cache calls used by the eviction witness. -/
def c3trace : List CacheOp :=
  [CacheOp.set oA, CacheOp.set oB, CacheOp.get "A"]

/-- Trace of mixed cache calls used by the invariant witness. -/
def c8trace : List CacheCall :=
  [CacheCall.set oA, CacheCall.restore [oB, oC], CacheCall.get "B"]

/-!
Validator claims.  rejectCond renders the rejection conditions exactly as
the claim lists them; errCond maps each structured rejection value to the
condition it identifies.
-/

/-- The rejection conditions as listed by the claim, as one disjunction. -/
def rejectCond (now : Int) (o : Order) : Prop :=
  o.dateCreated > now + 60 ∨
  o.orderUID = "" ∨ o.trackNumber = "" ∨ o.entry = "" ∨ o.locale = "" ∨
  o.customerID = "" ∨ o.deliveryService = "" ∨ o.shardkey = "" ∨
  o.oofShard = "" ∨
  (o.delivery.name = "" ∨ o.delivery.phone = "" ∨ o.delivery.zip = "" ∨
    o.delivery.city = "" ∨ o.delivery.address = "" ∨ o.delivery.region = "" ∨
    o.delivery.email = "") ∨
  (o.payment.transaction = "" ∨ o.payment.currency = "" ∨
    o.payment.provider = "" ∨ o.payment.bank = "") ∨
  (o.payment.amount ≤ 0 ∨ o.payment.paymentDt ≤ 0 ∨
    o.payment.deliveryCost < 0 ∨ o.payment.goodsTotal ≤ 0 ∨
    o.payment.customFee < 0) ∨
  o.items = [] ∨
  (∃ it ∈ o.items, itemBad it)

/-- The condition each rejection value identifies: the failing field,
field group, or 1-based item number. -/
def errCond (now : Int) (o : Order) : ValErr → Prop
  | .futureDate => o.dateCreated > now + 60
  | .missingOrderUID => o.orderUID = ""
  | .missingTrackNumber => o.trackNumber = ""
  | .missingEntry => o.entry = ""
  | .missingLocale => o.locale = ""
  | .missingCustomerID => o.customerID = ""
  | .missingDeliveryService => o.deliveryService = ""
  | .missingShardkey => o.shardkey = ""
  | .missingOofShard => o.oofShard = ""
  | .missingDeliveryFields =>
      o.delivery.name = "" ∨ o.delivery.phone = "" ∨ o.delivery.zip = "" ∨
      o.delivery.city = "" ∨ o.delivery.address = "" ∨ o.delivery.region = "" ∨
      o.delivery.email = ""
  | .missingPaymentFields =>
      o.payment.transaction = "" ∨ o.payment.currency = "" ∨
      o.payment.provider = "" ∨ o.payment.bank = ""
  | .invalidPaymentNumbers =>
      o.payment.amount ≤ 0 ∨ o.payment.paymentDt ≤ 0 ∨
      o.payment.deliveryCost < 0 ∨ o.payment.goodsTotal ≤ 0 ∨
      o.payment.customFee < 0
  | .noItems => o.items = []
  | .badItem n => ∃ it, o.items.get? (n - 1) = some it ∧ itemBad it

/-- An otherwise valid order whose creation timestamp lies 100 seconds in
the future of clock reading 0. -/
def oFuture : Order :=
  { mkOrder "F" with dateCreated := 100 }

/-- The store with all four tables empty. -/
def emptyStore : Store :=
  { ordersT := [], deliveryT := [], paymentT := [], itemsT := [] }

/-- Concrete decoder for witnesses: three known payloads, everything else
undecodable. -/
def decTwo : String → Option Order :=
  fun s =>
    if s = "mA" then some oA
    else if s = "mB" then some oB
    else if s = "mBadUid" then some (mkOrder "") else none

/-- Concrete persistence oracle for witnesses: the transaction fails for
identifier A and commits for everything else. -/
def insFailA : Store → Order → Option Store :=
  fun st o => if o.orderUID = "A" then none else some (insertOrderDb st o)

/-- Concrete durable fetch for the read-path witnesses: only identifier B
is stored. -/
def storeB : String → Option Order :=
  fun s => if s = "B" then some oB else none

/-- Cache holding only order A, used by the read-path witnesses. -/
def cacheA : OrderCache :=
  (OrderCache.new 2).set oA

/-!
Lemmas about the association-list map.
-/

@[simp]
theorem keysA_nil : keysA [] = [] :=
  rfl

@[simp]
theorem keysA_cons (k : String) (v : Order) (m : List (String × Order)) :
    keysA ((k, v) :: m) = k :: keysA m :=
  rfl

theorem lookupA_insertA_self (m : List (String × Order)) (k : String) (v : Order) :
    lookupA (insertA m k v) k = some v := by
  induction m with
  | nil => simp [insertA, lookupA]
  | cons hd tl ih =>
    obtain ⟨k', v'⟩ := hd
    by_cases h : k' = k
    · subst h
      simp [insertA, lookupA]
    · simp [insertA, lookupA, h, ih]

theorem lookupA_insertA_ne (m : List (String × Order)) (k k' : String) (v : Order)
    (h : k' ≠ k) : lookupA (insertA m k v) k' = lookupA m k' := by
  induction m with
  | nil => simp [insertA, lookupA, Ne.symm h]
  | cons hd tl ih =>
    obtain ⟨k0, v0⟩ := hd
    by_cases h0 : k0 = k
    · subst h0
      simp [insertA, lookupA, Ne.symm h]
    · by_cases h1 : k0 = k'
      · subst h1
        simp [insertA, lookupA, h0]
      · simp [insertA, lookupA, h0, h1, ih]

theorem isSome_lookupA_insertA (m : List (String × Order)) (k k' : String) (v : Order) :
    (lookupA (insertA m k v) k').isSome ↔ (k' = k ∨ (lookupA m k').isSome) := by
  by_cases h : k' = k
  · subst h
    simp [lookupA_insertA_self]
  · simp [lookupA_insertA_ne m k k' v h, h]

theorem length_insertA_of_isSome (m : List (String × Order)) (k : String) (v : Order)
    (h : (lookupA m k).isSome) : (insertA m k v).length = m.length := by
  induction m with
  | nil => simp [lookupA] at h
  | cons hd tl ih =>
    obtain ⟨k0, v0⟩ := hd
    by_cases h0 : k0 = k
    · subst h0
      simp [insertA]
    · simp only [lookupA, h0, if_false] at h
      simp [insertA, h0, ih h]

theorem length_insertA_of_none (m : List (String × Order)) (k : String) (v : Order)
    (h : lookupA m k = none) : (insertA m k v).length = m.length + 1 := by
  induction m with
  | nil => simp [insertA]
  | cons hd tl ih =>
    obtain ⟨k0, v0⟩ := hd
    by_cases h0 : k0 = k
    · subst h0
      simp [lookupA] at h
    · simp only [lookupA, h0, if_false] at h
      simp [insertA, h0, ih h]

theorem mem_keysA_iff (m : List (String × Order)) (k : String) :
    k ∈ keysA m ↔ (lookupA m k).isSome := by
  induction m with
  | nil => simp [keysA, lookupA]
  | cons hd tl ih =>
    obtain ⟨k0, v0⟩ := hd
    by_cases h0 : k0 = k
    · subst h0
      simp [keysA, lookupA]
    · simp [keysA, lookupA, h0, Ne.symm h0] at ih ⊢
      exact ih

theorem keysA_insertA_of_isSome (m : List (String × Order)) (k : String) (v : Order)
    (h : (lookupA m k).isSome) : keysA (insertA m k v) = keysA m := by
  induction m with
  | nil => simp [lookupA] at h
  | cons hd tl ih =>
    obtain ⟨k0, v0⟩ := hd
    by_cases h0 : k0 = k
    · subst h0
      simp [insertA, keysA]
    · simp only [lookupA, h0, if_false] at h
      simp [insertA, keysA, h0] at ih ⊢
      exact ih h

theorem keysA_insertA_of_none (m : List (String × Order)) (k : String) (v : Order)
    (h : lookupA m k = none) : keysA (insertA m k v) = keysA m ++ [k] := by
  induction m with
  | nil => simp [insertA, keysA]
  | cons hd tl ih =>
    obtain ⟨k0, v0⟩ := hd
    by_cases h0 : k0 = k
    · subst h0
      simp [lookupA] at h
    · simp only [lookupA, h0, if_false] at h
      simp [insertA, keysA, h0] at ih ⊢
      exact ih h

theorem knodup_insertA (m : List (String × Order)) (k : String) (v : Order)
    (h : (keysA m).Nodup) : (keysA (insertA m k v)).Nodup := by
  cases hk : lookupA m k with
  | some w =>
    rw [keysA_insertA_of_isSome m k v (by simp [hk])]
    exact h
  | none =>
    rw [keysA_insertA_of_none m k v hk]
    refine List.Nodup.append h (List.nodup_singleton k) ?_
    intro a ha hb
    simp at hb
    subst hb
    rw [mem_keysA_iff, hk] at ha
    simp at ha

theorem lookupA_eraseA_ne (m : List (String × Order)) (k k' : String) (h : k' ≠ k) :
    lookupA (eraseA m k) k' = lookupA m k' := by
  induction m with
  | nil => simp [eraseA]
  | cons hd tl ih =>
    obtain ⟨k0, v0⟩ := hd
    by_cases h0 : k0 = k
    · subst h0
      simp [eraseA, lookupA, Ne.symm h]
    · simp [eraseA, lookupA, h0, ih]

theorem lookupA_eraseA_self (m : List (String × Order)) (k : String)
    (h : (keysA m).Nodup) : lookupA (eraseA m k) k = none := by
  induction m with
  | nil => simp [eraseA, lookupA]
  | cons hd tl ih =>
    obtain ⟨k0, v0⟩ := hd
    simp only [keysA_cons, List.nodup_cons] at h
    by_cases h0 : k0 = k
    · subst h0
      simp only [eraseA, if_pos rfl]
      cases hk : lookupA tl k0 with
      | none => exact hk
      | some w =>
        exfalso
        exact h.1 ((mem_keysA_iff tl k0).2 (by simp [hk]))
    · simp only [eraseA, if_neg h0, lookupA, if_neg h0]
      exact ih h.2

theorem length_eraseA_of_isSome (m : List (String × Order)) (k : String)
    (h : (lookupA m k).isSome) : (eraseA m k).length + 1 = m.length := by
  induction m with
  | nil => simp [lookupA] at h
  | cons hd tl ih =>
    obtain ⟨k0, v0⟩ := hd
    by_cases h0 : k0 = k
    · subst h0
      simp [eraseA]
    · simp only [lookupA, h0, if_false] at h
      simp [eraseA, h0, ih h]

theorem keysA_eraseA_nodup (m : List (String × Order)) (k : String)
    (h : (keysA m).Nodup) : (keysA (eraseA m k)).Nodup := by
  induction m with
  | nil => simp [eraseA]
  | cons hd tl ih =>
    obtain ⟨k0, v0⟩ := hd
    simp only [keysA_cons, List.nodup_cons] at h
    by_cases h0 : k0 = k
    · subst h0
      simp only [eraseA, if_pos rfl]
      exact h.2
    · simp only [eraseA, if_neg h0, keysA_cons, List.nodup_cons]
      refine ⟨fun hmem => ?_, ih h.2⟩
      rw [mem_keysA_iff, lookupA_eraseA_ne tl k k0 h0] at hmem
      exact h.1 ((mem_keysA_iff tl k0).2 hmem)

theorem isSome_lookupA_eraseA (m : List (String × Order)) (k k' : String)
    (h : (keysA m).Nodup) :
    (lookupA (eraseA m k) k').isSome ↔ (k' ≠ k ∧ (lookupA m k').isSome) := by
  by_cases hk : k' = k
  · subst hk
    simp [lookupA_eraseA_self m k' h]
  · simp [lookupA_eraseA_ne m k k' hk, hk]

theorem wf_new (cap : Nat) : Wf (OrderCache.new cap) := by
  refine ⟨List.nodup_nil, fun k => ?_, List.nodup_nil⟩
  simp [OrderCache.new, lookupA]

theorem updateLRU_nodup (l : List String) (u : String) (h : l.Nodup) :
    (updateLRU l u).Nodup := by
  unfold updateLRU
  split
  · exact List.Nodup.cons (by simp [h.mem_erase_iff]) (h.erase u)
  · exact h

theorem mem_updateLRU (l : List String) (u k : String) (h : l.Nodup) :
    k ∈ updateLRU l u ↔ k ∈ l := by
  unfold updateLRU
  split
  · rename_i hu
    by_cases hk : k = u
    · subst hk
      simp [hu]
    · simp [hk, h.mem_erase_iff]
  · exact Iff.rfl

theorem get_snd_orders (c : OrderCache) (u : String) :
    ((c.get u).2).orders = c.orders := by
  unfold OrderCache.get
  cases lookupA c.orders u <;> rfl

theorem get_snd_maxSize (c : OrderCache) (u : String) :
    ((c.get u).2).maxSize = c.maxSize := by
  unfold OrderCache.get
  cases lookupA c.orders u <;> rfl

theorem get_fst (c : OrderCache) (u : String) :
    (c.get u).1 = lookupA c.orders u := by
  unfold OrderCache.get
  cases lookupA c.orders u <;> rfl

theorem evictLRU_maxSize (c : OrderCache) : c.evictLRU.maxSize = c.maxSize := by
  unfold OrderCache.evictLRU
  cases c.lru.getLast? <;> rfl

theorem set_eq_resident (c : OrderCache) (o : Order)
    (h : (lookupA c.orders o.orderUID).isSome) :
    c.set o = { orders := insertA c.orders o.orderUID o
                lru := updateLRU c.lru o.orderUID
                maxSize := c.maxSize } := by
  simp [OrderCache.set, h]

theorem set_eq_fresh_avail (c : OrderCache) (o : Order)
    (h : lookupA c.orders o.orderUID = none)
    (hlt : ¬ c.maxSize ≤ c.orders.length) :
    c.set o = { orders := insertA c.orders o.orderUID o
                lru := o.orderUID :: c.lru
                maxSize := c.maxSize } := by
  simp [OrderCache.set, h, hlt, addToLRU]

theorem set_eq_fresh_full (c : OrderCache) (o : Order)
    (h : lookupA c.orders o.orderUID = none)
    (hfull : c.maxSize ≤ c.orders.length) :
    c.set o = { orders := insertA c.evictLRU.orders o.orderUID o
                lru := o.orderUID :: c.evictLRU.lru
                maxSize := c.maxSize } := by
  simp [OrderCache.set, h, hfull, addToLRU, evictLRU_maxSize]

theorem set_maxSize (c : OrderCache) (o : Order) :
    (c.set o).maxSize = c.maxSize := by
  cases hl : lookupA c.orders o.orderUID with
  | some w =>
    rw [set_eq_resident c o (by simp [hl])]
  | none =>
    by_cases hfull : c.maxSize ≤ c.orders.length
    · rw [set_eq_fresh_full c o hl hfull]
    · rw [set_eq_fresh_avail c o hl hfull]

theorem wf_get (c : OrderCache) (u : String) (h : Wf c) : Wf (c.get u).2 := by
  obtain ⟨hnd, hmem, hknd⟩ := h
  unfold OrderCache.get
  cases hl : lookupA c.orders u with
  | none => exact ⟨hnd, hmem, hknd⟩
  | some o =>
    refine ⟨updateLRU_nodup _ _ hnd, fun k => ?_, hknd⟩
    rw [mem_updateLRU _ _ _ hnd]
    exact hmem k

theorem evictLRU_eq (c : OrderCache) (l0 : List String) (t : String)
    (hl : c.lru = l0 ++ [t]) :
    c.evictLRU = { c with orders := eraseA c.orders t, lru := l0 } := by
  unfold OrderCache.evictLRU
  rw [hl]
  simp

theorem wf_evictLRU_decomp (c : OrderCache) (l0 : List String) (t : String)
    (h : Wf c) (hl : c.lru = l0 ++ [t]) : Wf c.evictLRU := by
  obtain ⟨hnd, hmem, hknd⟩ := h
  rw [evictLRU_eq c l0 t hl]
  rw [hl] at hnd hmem
  have htl0 : t ∉ l0 := by
    intro hmem0
    have := List.disjoint_of_nodup_append hnd hmem0
    simp at this
  refine ⟨(List.sublist_append_left l0 [t]).nodup hnd, fun k => ?_,
    keysA_eraseA_nodup _ _ hknd⟩
  show k ∈ l0 ↔ _
  rw [isSome_lookupA_eraseA _ _ _ hknd, ← hmem k]
  constructor
  · intro hk
    refine ⟨fun he => htl0 (he ▸ hk), by simp [hk]⟩
  · rintro ⟨hne, hk⟩
    rcases List.mem_append.1 hk with h0 | h1
    · exact h0
    · simp at h1
      exact absurd h1 hne

theorem lru_decomp_of_orders_ne (c : OrderCache) (h : Wf c)
    (hne : c.orders ≠ []) : ∃ l0 t, c.lru = l0 ++ [t] := by
  obtain ⟨hnd, hmem, hknd⟩ := h
  obtain ⟨⟨k0, v0⟩, m0, he⟩ := List.exists_cons_of_ne_nil hne
  have hk0 : k0 ∈ c.lru := by
    rw [hmem k0, he]
    simp [lookupA]
  have hlne : c.lru ≠ [] := fun h0 => by simp [h0] at hk0
  rcases List.eq_nil_or_concat c.lru with h0 | ⟨l0, t, h1⟩
  · exact absurd h0 hlne
  · exact ⟨l0, t, by simpa [List.concat_eq_append] using h1⟩

theorem wf_set (c : OrderCache) (o : Order) (h : Wf c) : Wf (c.set o) := by
  obtain ⟨hnd, hmem, hknd⟩ := h
  cases hl : lookupA c.orders o.orderUID with
  | some w =>
    rw [set_eq_resident c o (by simp [hl])]
    refine ⟨updateLRU_nodup _ _ hnd, fun k => ?_, knodup_insertA _ _ _ hknd⟩
    show k ∈ updateLRU c.lru o.orderUID ↔ _
    rw [mem_updateLRU _ _ _ hnd, isSome_lookupA_insertA]
    constructor
    · intro hk
      exact Or.inr ((hmem k).1 hk)
    · rintro (rfl | hk)
      · exact (hmem _).2 (by simp [hl])
      · exact (hmem k).2 hk
  | none =>
    by_cases hfull : c.maxSize ≤ c.orders.length
    · rw [set_eq_fresh_full c o hl hfull]
      by_cases hoe : c.orders = []
      · have hle : c.lru = [] := by
          rcases h0 : c.lru with _ | ⟨k0, l1⟩
          · rfl
          · have hk0 := (hmem k0).1 (by simp [h0])
            rw [hoe] at hk0
            simp [lookupA] at hk0
        have hev : c.evictLRU = c := by
          unfold OrderCache.evictLRU
          rw [hle]
          rfl
        refine ⟨?_, fun k => ?_, ?_⟩
        · rw [hev, hle]
          exact List.nodup_singleton _
        · rw [hev, hle, hoe]
          show k ∈ [o.orderUID] ↔ _
          rw [isSome_lookupA_insertA]
          simp [lookupA]
        · rw [hev]
          exact knodup_insertA _ _ _ hknd
      · obtain ⟨l0, t, hdec⟩ := lru_decomp_of_orders_ne c ⟨hnd, hmem, hknd⟩ hoe
        have hwe : Wf c.evictLRU := wf_evictLRU_decomp c l0 t ⟨hnd, hmem, hknd⟩ hdec
        obtain ⟨hnd1, hmem1, hknd1⟩ := hwe
        have hfresh1 : lookupA c.evictLRU.orders o.orderUID = none := by
          rw [evictLRU_eq c l0 t hdec]
          show lookupA (eraseA c.orders t) o.orderUID = none
          by_cases hot : o.orderUID = t
          · rw [hot]
            exact lookupA_eraseA_self _ _ hknd
          · rw [lookupA_eraseA_ne _ _ _ hot]
            exact hl
        refine ⟨?_, fun k => ?_, knodup_insertA _ _ _ hknd1⟩
        · refine List.Nodup.cons (fun hm => ?_) hnd1
          have := (hmem1 _).1 hm
          rw [hfresh1] at this
          simp at this
        · show k ∈ o.orderUID :: c.evictLRU.lru ↔ _
          rw [List.mem_cons, isSome_lookupA_insertA, hmem1 k]
    · rw [set_eq_fresh_avail c o hl hfull]
      refine ⟨?_, fun k => ?_, knodup_insertA _ _ _ hknd⟩
      · refine List.Nodup.cons (fun hm => ?_) hnd
        have := (hmem _).1 hm
        rw [hl] at this
        simp at this
      · show k ∈ o.orderUID :: c.lru ↔ _
        rw [List.mem_cons, isSome_lookupA_insertA, hmem k]

/-!
Resident-count behaviour of set.
-/

theorem length_set_resident (c : OrderCache) (o : Order)
    (h : (lookupA c.orders o.orderUID).isSome) :
    (c.set o).orders.length = c.orders.length := by
  rw [set_eq_resident c o h]
  exact length_insertA_of_isSome _ _ _ h

/-- Under well-formedness, a set of a fresh identifier into a full cache
removes exactly the tail key of the recency list from the residents and
adds the fresh identifier, keeping the resident count. -/
theorem set_fresh_full_spec (c : OrderCache) (o : Order) (hw : Wf c)
    (hl : lookupA c.orders o.orderUID = none) (hne : c.orders ≠ [])
    (hfull : c.maxSize ≤ c.orders.length) :
    ∃ l0 t, c.lru = l0 ++ [t] ∧ c.lru.getLast? = some t ∧
      (lookupA c.orders t).isSome ∧
      (∀ k, (lookupA (c.set o).orders k).isSome ↔
        (k = o.orderUID ∨ ((lookupA c.orders k).isSome ∧ k ≠ t))) ∧
      (c.set o).orders.length = c.orders.length := by
  obtain ⟨hnd, hmem, hknd⟩ := hw
  obtain ⟨l0, t, hdec⟩ := lru_decomp_of_orders_ne c ⟨hnd, hmem, hknd⟩ hne
  have htres : (lookupA c.orders t).isSome := (hmem t).1 (by simp [hdec])
  have hfresh1 : lookupA (eraseA c.orders t) o.orderUID = none := by
    by_cases hot : o.orderUID = t
    · rw [hot]
      exact lookupA_eraseA_self _ _ hknd
    · rw [lookupA_eraseA_ne _ _ _ hot]
      exact hl
  have hev : c.evictLRU.orders = eraseA c.orders t := by
    rw [evictLRU_eq c l0 t hdec]
  refine ⟨l0, t, hdec, by rw [hdec]; simp, htres, fun k => ?_, ?_⟩
  · rw [set_eq_fresh_full c o hl hfull]
    show (lookupA (insertA c.evictLRU.orders o.orderUID o) k).isSome ↔ _
    rw [hev, isSome_lookupA_insertA, isSome_lookupA_eraseA _ _ _ hknd]
    tauto
  · rw [set_eq_fresh_full c o hl hfull]
    show (insertA c.evictLRU.orders o.orderUID o).length = _
    rw [hev, length_insertA_of_none _ _ _ hfresh1]
    rw [length_eraseA_of_isSome _ _ htres]

theorem set_size_le (c : OrderCache) (o : Order) (hw : Wf c)
    (hcap : 1 ≤ c.maxSize) (hle : c.orders.length ≤ c.maxSize) :
    (c.set o).orders.length ≤ c.maxSize := by
  cases hl : lookupA c.orders o.orderUID with
  | some w =>
    rw [length_set_resident c o (by simp [hl])]
    exact hle
  | none =>
    by_cases hfull : c.maxSize ≤ c.orders.length
    · have hne : c.orders ≠ [] := by
        intro h0
        rw [h0] at hfull
        simp at hfull
        omega
      obtain ⟨l0, t, _, _, _, _, hlen⟩ := set_fresh_full_spec c o hw hl hne hfull
      omega
    · rw [set_eq_fresh_avail c o hl hfull]
      show (insertA c.orders o.orderUID o).length ≤ c.maxSize
      rw [length_insertA_of_none _ _ _ hl]
      omega

theorem runOps_append (cap : Nat) (t : List CacheOp) (op : CacheOp) :
    runOps cap (t ++ [op]) = stepOp (runOps cap t) op := by
  simp [runOps]

theorem touchedAge_append (t : List CacheOp) (op : CacheOp) (k : String) :
    touchedAge (t ++ [op]) k =
      if opKey op = k then some 0 else (touchedAge t k).map (· + 1) := by
  simp [touchedAge, lastAge]

theorem lastAge_lt_length (l : List CacheOp) (k : String) (i : Nat)
    (h : lastAge l k = some i) : i < l.length := by
  induction l generalizing i with
  | nil => simp [lastAge] at h
  | cons op rest ih =>
    simp only [lastAge] at h
    simp only [List.length_cons]
    split at h
    · simp at h
      omega
    · cases h1 : lastAge rest k with
      | none => rw [h1] at h; simp at h
      | some j =>
        rw [h1] at h
        simp at h
        have := ih j h1
        omega

theorem touchedAge_lt_length (t : List CacheOp) (k : String) (i : Nat)
    (h : touchedAge t k = some i) : i < t.length := by
  have := lastAge_lt_length t.reverse k i h
  simpa using this

theorem ageD_append_touched (t : List CacheOp) (op : CacheOp) (k : String)
    (h : opKey op = k) : ageD (t ++ [op]) k = 0 := by
  simp [ageD, touchedAge_append, h]

theorem touchedAge_append_untouched (t : List CacheOp) (op : CacheOp) (k : String)
    (h : opKey op ≠ k) :
    touchedAge (t ++ [op]) k = (touchedAge t k).map (· + 1) := by
  simp [touchedAge_append, h]

theorem ageD_append_untouched (t : List CacheOp) (op : CacheOp) (k : String)
    (h : opKey op ≠ k) (hs : (touchedAge t k).isSome) :
    ageD (t ++ [op]) k = ageD t k + 1 := by
  obtain ⟨i, hi⟩ := Option.isSome_iff_exists.1 hs
  rw [ageD, ageD, touchedAge_append_untouched t op k h, hi]
  simp

theorem isSome_touchedAge_append (t : List CacheOp) (op : CacheOp) (k : String)
    (hs : (touchedAge t k).isSome) : (touchedAge (t ++ [op]) k).isSome := by
  rw [touchedAge_append]
  by_cases h : opKey op = k
  · simp [h]
  · simpa [h] using hs

theorem isSome_touchedAge_append_self (t : List CacheOp) (op : CacheOp)
    (k : String) (h : opKey op = k) : (touchedAge (t ++ [op]) k).isSome := by
  simp [touchedAge_append, h]

theorem ageInv_shift_all (t : List CacheOp) (op : CacheOp) (l : List String)
    (hs : ∀ k ∈ l, (touchedAge t k).isSome) (hn : ∀ k ∈ l, opKey op ≠ k)
    (hp : l.Pairwise (fun a b => ageD t a < ageD t b)) :
    (∀ k ∈ l, (touchedAge (t ++ [op]) k).isSome) ∧
      l.Pairwise (fun a b => ageD (t ++ [op]) a < ageD (t ++ [op]) b) := by
  refine ⟨fun k hk => isSome_touchedAge_append t op k (hs k hk), ?_⟩
  refine List.Pairwise.imp_of_mem ?_ hp
  intro a b ha hb hab
  rw [ageD_append_untouched t op a (hn a ha) (hs a ha),
    ageD_append_untouched t op b (hn b hb) (hs b hb)]
  omega

theorem ageInv_cons_shift (t : List CacheOp) (op : CacheOp) (u : String)
    (l l1 : List String) (hsub : l1.Sublist l) (hu : opKey op = u)
    (hnotin : u ∉ l1) (hs : ∀ k ∈ l, (touchedAge t k).isSome)
    (hp : l.Pairwise (fun a b => ageD t a < ageD t b)) :
    (∀ k ∈ u :: l1, (touchedAge (t ++ [op]) k).isSome) ∧
      (u :: l1).Pairwise (fun a b => ageD (t ++ [op]) a < ageD (t ++ [op]) b) := by
  have hs1 : ∀ k ∈ l1, (touchedAge t k).isSome := fun k hk => hs k (hsub.mem hk)
  have hn1 : ∀ k ∈ l1, opKey op ≠ k := by
    intro k hk he
    refine hnotin ?_
    rw [hu.symm.trans he]
    exact hk
  obtain ⟨hs2, hp2⟩ := ageInv_shift_all t op l1 hs1 hn1 (hp.sublist hsub)
  refine ⟨fun k hk => ?_, ?_⟩
  · rcases List.mem_cons.1 hk with rfl | hk1
    · exact isSome_touchedAge_append_self t op k hu
    · exact hs2 k hk1
  · refine List.pairwise_cons.2 ⟨fun b hb => ?_, hp2⟩
    rw [ageD_append_touched t op u hu,
      ageD_append_untouched t op b (hn1 b hb) (hs1 b hb)]
    omega

theorem wf_stepOp (c : OrderCache) (op : CacheOp) (h : Wf c) : Wf (stepOp c op) := by
  cases op with
  | get uid => exact wf_get c uid h
  | set o => exact wf_set c o h

theorem maxSize_stepOp (c : OrderCache) (op : CacheOp) :
    (stepOp c op).maxSize = c.maxSize := by
  cases op with
  | get uid => exact get_snd_maxSize c uid
  | set o => exact set_maxSize c o

theorem size_le_stepOp (c : OrderCache) (op : CacheOp) (hw : Wf c)
    (hcap : 1 ≤ c.maxSize) (hle : c.orders.length ≤ c.maxSize) :
    (stepOp c op).orders.length ≤ c.maxSize := by
  cases op with
  | get uid =>
    show ((c.get uid).2).orders.length ≤ c.maxSize
    rw [get_snd_orders]
    exact hle
  | set o => exact set_size_le c o hw hcap hle

theorem ageInv_mk (t : List CacheOp) (m : List (String × Order))
    (l : List String) (ms : Nat)
    (h : (∀ k ∈ l, (touchedAge t k).isSome) ∧
      l.Pairwise (fun a b => ageD t a < ageD t b)) :
    AgeInv t ⟨m, l, ms⟩ :=
  h

theorem ageInv_stepOp (t : List CacheOp) (op : CacheOp) (c : OrderCache)
    (hw : Wf c) (ha : AgeInv t c) : AgeInv (t ++ [op]) (stepOp c op) := by
  obtain ⟨hnd, hmem, hknd⟩ := hw
  obtain ⟨hs, hp⟩ := ha
  cases op with
  | get uid =>
    show AgeInv (t ++ [.get uid]) (c.get uid).2
    unfold OrderCache.get
    cases hl : lookupA c.orders uid with
    | none =>
      have hn : ∀ k ∈ c.lru, opKey (.get uid) ≠ k := by
        intro k hk he
        have hks := (hmem k).1 hk
        rw [show k = uid from he.symm, hl] at hks
        simp at hks
      exact ageInv_shift_all t (.get uid) c.lru hs hn hp
    | some o =>
      have hu : uid ∈ c.lru := (hmem uid).2 (by simp [hl])
      have hupd : updateLRU c.lru uid = uid :: c.lru.erase uid := by
        unfold updateLRU
        rw [if_pos hu]
      refine ageInv_mk _ _ _ _ ?_
      rw [hupd]
      exact ageInv_cons_shift t (.get uid) uid c.lru (c.lru.erase uid)
        (c.lru.erase_sublist uid) rfl (by simp [hnd.mem_erase_iff]) hs hp
  | set o =>
    show AgeInv (t ++ [.set o]) (c.set o)
    cases hl : lookupA c.orders o.orderUID with
    | some w =>
      rw [set_eq_resident c o (by simp [hl])]
      have hu : o.orderUID ∈ c.lru := (hmem _).2 (by simp [hl])
      have hupd : updateLRU c.lru o.orderUID =
          o.orderUID :: c.lru.erase o.orderUID := by
        unfold updateLRU
        rw [if_pos hu]
      refine ageInv_mk _ _ _ _ ?_
      rw [hupd]
      exact ageInv_cons_shift t (.set o) o.orderUID c.lru (c.lru.erase o.orderUID)
        (c.lru.erase_sublist _) rfl (by simp [hnd.mem_erase_iff]) hs hp
    | none =>
      have hu : o.orderUID ∉ c.lru := by
        intro hk
        have hks := (hmem _).1 hk
        rw [hl] at hks
        simp at hks
      by_cases hfull : c.maxSize ≤ c.orders.length
      · by_cases hne : c.orders = []
        · have hle : c.lru = [] := by
            rcases h0 : c.lru with _ | ⟨k0, l1⟩
            · rfl
            · have hk0 := (hmem k0).1 (by simp [h0])
              rw [hne] at hk0
              simp [lookupA] at hk0
          have hev : c.evictLRU = c := by
            unfold OrderCache.evictLRU
            rw [hle]
            rfl
          rw [set_eq_fresh_full c o hl hfull, hev, hle]
          exact ageInv_mk _ _ _ _
            (ageInv_cons_shift t (.set o) o.orderUID [] [] (List.Sublist.refl [])
              rfl (by simp) (by simp) (by simp))
        · obtain ⟨l0, tl, hdec⟩ :=
            lru_decomp_of_orders_ne c ⟨hnd, hmem, hknd⟩ hne
          have hev : c.evictLRU.lru = l0 := by
            rw [evictLRU_eq c l0 tl hdec]
          have hl0 : l0.Sublist c.lru := by
            rw [hdec]
            exact List.sublist_append_left l0 [tl]
          have hu0 : o.orderUID ∉ l0 := fun hk => hu (hl0.mem hk)
          rw [set_eq_fresh_full c o hl hfull]
          refine ageInv_mk _ _ _ _ ?_
          rw [hev]
          exact ageInv_cons_shift t (.set o) o.orderUID c.lru l0 hl0 rfl hu0 hs hp
      · rw [set_eq_fresh_avail c o hl hfull]
        exact ageInv_mk _ _ _ _
          (ageInv_cons_shift t (.set o) o.orderUID c.lru c.lru
            (List.Sublist.refl _) rfl hu hs hp)

theorem runOps_wf (cap : Nat) (t : List CacheOp) :
    Wf (runOps cap t) ∧ (runOps cap t).maxSize = cap ∧
      (1 ≤ cap → (runOps cap t).orders.length ≤ cap) := by
  suffices h : ∀ (t : List CacheOp) (c : OrderCache), Wf c →
      Wf (t.foldl stepOp c) ∧ (t.foldl stepOp c).maxSize = c.maxSize ∧
        (1 ≤ c.maxSize → c.orders.length ≤ c.maxSize →
          (t.foldl stepOp c).orders.length ≤ c.maxSize) by
    obtain ⟨h1, h2, h3⟩ := h t (OrderCache.new cap) (wf_new cap)
    exact ⟨h1, h2, fun hc => h3 hc (by simp [OrderCache.new])⟩
  intro t
  induction t with
  | nil => exact fun c hw => ⟨hw, rfl, fun _ h => h⟩
  | cons op rest ih =>
    intro c hw
    obtain ⟨h1, h2, h3⟩ := ih (stepOp c op) (wf_stepOp c op hw)
    have hms := maxSize_stepOp c op
    refine ⟨h1, ?_, fun hc hle => ?_⟩
    · show (List.foldl stepOp (stepOp c op) rest).maxSize = c.maxSize
      rw [h2, hms]
    · show (List.foldl stepOp (stepOp c op) rest).orders.length ≤ c.maxSize
      have h4 := h3 (by rw [hms]; exact hc)
        (by rw [hms]; exact size_le_stepOp c op hw hc hle)
      rw [hms] at h4
      exact h4

theorem runOps_ageInv (cap : Nat) (t : List CacheOp) :
    AgeInv t (runOps cap t) := by
  induction t using List.reverseRecOn with
  | nil =>
    refine ⟨by simp [runOps, OrderCache.new], ?_⟩
    simp [runOps, OrderCache.new]
  | append_singleton t op ih =>
    rw [runOps_append]
    exact ageInv_stepOp t op (runOps cap t) (runOps_wf cap t).1 ih

theorem insertA_eq_append_of_none (m : List (String × Order)) (k : String)
    (v : Order) (h : lookupA m k = none) : insertA m k v = m ++ [(k, v)] := by
  induction m with
  | nil => simp [insertA]
  | cons hd tl ih =>
    obtain ⟨k0, v0⟩ := hd
    by_cases h0 : k0 = k
    · subst h0
      simp [lookupA] at h
    · simp only [lookupA, h0, if_false] at h
      simp [insertA, h0, ih h]

theorem restoreLoop_wf (os : List Order) : ∀ (c : OrderCache), Wf c →
    (os.map Order.orderUID).Nodup →
    (∀ o ∈ os, lookupA c.orders o.orderUID = none) →
    Wf (restoreLoop c os) := by
  induction os with
  | nil => exact fun c hw _ _ => hw
  | cons o rest ih =>
    intro c hw hnd hfresh
    obtain ⟨hlnd, hmem, hknd⟩ := hw
    have hfo : lookupA c.orders o.orderUID = none :=
      hfresh o (List.mem_cons_self o rest)
    have hnotin : o.orderUID ∉ c.lru := by
      intro hk
      have := (hmem _).1 hk
      rw [hfo] at this
      simp at this
    have hw1 : Wf { orders := insertA c.orders o.orderUID o
                    lru := addToLRU c.lru o.orderUID
                    maxSize := c.maxSize } := by
      refine ⟨List.Nodup.cons hnotin hlnd, fun k => ?_, knodup_insertA _ _ _ hknd⟩
      show k ∈ o.orderUID :: c.lru ↔ _
      rw [List.mem_cons, isSome_lookupA_insertA, hmem k]
    simp only [restoreLoop]
    split
    · exact hw1
    · refine ih _ hw1 (by simp at hnd; exact hnd.2) ?_
      intro o' ho'
      show lookupA (insertA c.orders o.orderUID o) o'.orderUID = none
      have hne : o'.orderUID ≠ o.orderUID := by
        simp only [List.map_cons, List.nodup_cons] at hnd
        intro he
        exact hnd.1 (he ▸ List.mem_map_of_mem Order.orderUID ho')
      rw [lookupA_insertA_ne _ _ _ _ hne]
      exact hfresh o' (List.mem_cons_of_mem o ho')

theorem wf_restore (c : OrderCache) (os : List Order)
    (hnd : (os.map Order.orderUID).Nodup) : Wf (c.restore os) := by
  refine restoreLoop_wf os _ ?_ hnd ?_
  · refine ⟨List.nodup_nil, fun k => ?_, List.nodup_nil⟩
    simp [lookupA]
  · intro o _
    simp [lookupA]

theorem restoreLoop_closed (os : List Order) : ∀ (c : OrderCache),
    (os.map Order.orderUID).Nodup →
    (∀ o ∈ os, lookupA c.orders o.orderUID = none) →
    c.orders.length < c.maxSize →
    restoreLoop c os =
      { orders := c.orders ++
          ((os.take (c.maxSize - c.orders.length)).map fun o => (o.orderUID, o))
        lru := ((os.take (c.maxSize - c.orders.length)).map Order.orderUID).reverse
          ++ c.lru
        maxSize := c.maxSize } := by
  induction os with
  | nil =>
    intro c _ _ _
    simp [restoreLoop]
  | cons o rest ih =>
    intro c hnd hfresh hlt
    have hins := insertA_eq_append_of_none c.orders o.orderUID o
      (hfresh o (List.mem_cons_self o rest))
    simp only [restoreLoop, hins]
    by_cases hbr : c.maxSize ≤ (c.orders ++ [(o.orderUID, o)]).length
    · rw [if_pos hbr]
      have hms : c.maxSize - c.orders.length = 1 := by
        simp only [List.length_append, List.length_singleton] at hbr
        omega
      rw [hms]
      simp [addToLRU]
    · rw [if_neg hbr]
      have hlt1 : (c.orders ++ [(o.orderUID, o)]).length < c.maxSize := by
        simp only [List.length_append, List.length_singleton] at hbr ⊢
        omega
      have hnd1 : (rest.map Order.orderUID).Nodup := by
        simp only [List.map_cons, List.nodup_cons] at hnd
        exact hnd.2
      have hfresh1 : ∀ o' ∈ rest,
          lookupA (c.orders ++ [(o.orderUID, o)]) o'.orderUID = none := by
        intro o' ho'
        rw [← hins]
        have hne : o'.orderUID ≠ o.orderUID := by
          simp only [List.map_cons, List.nodup_cons] at hnd
          intro he
          exact hnd.1 (he ▸ List.mem_map_of_mem Order.orderUID ho')
        rw [lookupA_insertA_ne _ _ _ _ hne]
        exact hfresh o' (List.mem_cons_of_mem o ho')
      have ih' := ih { orders := c.orders ++ [(o.orderUID, o)]
                       lru := addToLRU c.lru o.orderUID
                       maxSize := c.maxSize } hnd1 hfresh1 hlt1
      rw [ih']
      obtain ⟨d1, hd1⟩ : ∃ d1, c.maxSize - c.orders.length = d1 + 1 :=
        ⟨c.maxSize - c.orders.length - 1, by omega⟩
      have hd2 : c.maxSize - (c.orders ++ [(o.orderUID, o)]).length = d1 := by
        simp only [List.length_append, List.length_singleton]
        omega
      rw [hd1, hd2]
      simp [addToLRU, List.take_succ_cons]

theorem runCalls_wf (cap : Nat) (t : List CacheCall)
    (h : ∀ os, CacheCall.restore os ∈ t → (os.map Order.orderUID).Nodup) :
    Wf (runCalls cap t) := by
  suffices hh : ∀ (t : List CacheCall) (c : OrderCache), Wf c →
      (∀ os, CacheCall.restore os ∈ t → (os.map Order.orderUID).Nodup) →
      Wf (t.foldl stepCall c) from hh t _ (wf_new cap) h
  intro t
  induction t with
  | nil => exact fun c hw _ => hw
  | cons op rest ih =>
    intro c hw hres
    refine ih (stepCall c op) ?_ fun os hos => hres os (List.mem_cons_of_mem _ hos)
    cases op with
    | get uid => exact wf_get c uid hw
    | set o => exact wf_set c o hw
    | restore os => exact wf_restore c os (hres os (List.mem_cons_self _ _))

/-- C2 (amended: the capacity fixed at construction is at least 1).  For
every sequence of Set calls from construction the resident count reported
by Size never exceeds the capacity after any call (as a natural number it
is also at least 0), and a Set whose identifier is already resident
leaves the count unchanged. -/
theorem set_sequence_size_bounded (cap : Nat) (hcap : 1 ≤ cap) (os : List Order) :
    (∀ n, (runOps cap ((os.take n).map CacheOp.set)).size ≤ cap) ∧
    (∀ o, (lookupA (runOps cap (os.map CacheOp.set)).orders o.orderUID).isSome →
      ((runOps cap (os.map CacheOp.set)).set o).size =
        (runOps cap (os.map CacheOp.set)).size) := by
  constructor
  · intro n
    exact (runOps_wf cap _).2.2 hcap
  · intro o h
    exact length_set_resident _ o h

/-- Witness for the size bound: capacity 1, two Set calls, then a Set of
the resident identifier. -/
theorem set_sequence_size_bounded_witness :
    (runOps 1 (([oA, oB].take 2).map CacheOp.set)).size ≤ 1 ∧
    ((runOps 1 ([oA, oB].map CacheOp.set)).set oB).size =
      (runOps 1 ([oA, oB].map CacheOp.set)).size :=
  ⟨(set_sequence_size_bounded 1 (by decide) [oA, oB]).1 2,
   (set_sequence_size_bounded 1 (by decide) [oA, oB]).2 oB (by decide)⟩

/-- C2 counterexample: with capacity 0 fixed at construction, a single
Set leaves one resident, so the resident count does not stay between 0
and the capacity. -/
theorem set_size_bound_fails_at_zero_capacity :
    (OrderCache.new 0).maxSize = 0 ∧ ((OrderCache.new 0).set oA).size = 1 := by
  decide

/-- C3 (amended: the capacity fixed at construction is at least 1).  For
every trace of Get and Set calls from construction, when a Set of a fresh
identifier arrives with the resident count equal to the capacity, the
tail of the recency list is a resident key touched strictly less recently
than every other resident, exactly that key leaves the residents, the
fresh identifier joins them, and the count stays at the capacity. -/
theorem set_at_capacity_evicts_least_recent (cap : Nat) (hcap : 1 ≤ cap)
    (t : List CacheOp) (o : Order)
    (hfresh : lookupA (runOps cap t).orders o.orderUID = none)
    (hsize : (runOps cap t).size = cap) :
    ∃ m, (runOps cap t).lru.getLast? = some m ∧
      (lookupA (runOps cap t).orders m).isSome ∧
      (∀ k, (lookupA (runOps cap t).orders k).isSome → k ≠ m →
        ∃ i j, touchedAge t k = some i ∧ touchedAge t m = some j ∧ i < j) ∧
      (∀ k, (lookupA ((runOps cap t).set o).orders k).isSome ↔
        (k = o.orderUID ∨ ((lookupA (runOps cap t).orders k).isSome ∧ k ≠ m))) ∧
      ((runOps cap t).set o).size = cap := by
  obtain ⟨hw, hms, _⟩ := runOps_wf cap t
  obtain ⟨hs, hp⟩ := runOps_ageInv cap t
  have hne : (runOps cap t).orders ≠ [] := by
    intro h0
    rw [OrderCache.size, h0] at hsize
    simp at hsize
    omega
  have hfull : (runOps cap t).maxSize ≤ (runOps cap t).orders.length := by
    rw [hms]
    exact le_of_eq hsize.symm
  obtain ⟨l0, tl, hdec, hlast, htres, hiff, hlen⟩ :=
    set_fresh_full_spec (runOps cap t) o hw hfresh hne hfull
  refine ⟨tl, hlast, htres, ?_, hiff, ?_⟩
  · intro k hk hkne
    have hkmem : k ∈ (runOps cap t).lru := (hw.2.1 k).2 hk
    rw [hdec] at hkmem
    have hkl0 : k ∈ l0 := by
      rcases List.mem_append.1 hkmem with h0 | h1
      · exact h0
      · simp at h1
        exact absurd h1 hkne
    have htlmem : tl ∈ (runOps cap t).lru := by
      rw [hdec]
      simp
    obtain ⟨i, hi⟩ := Option.isSome_iff_exists.1
      (hs k (by rw [hdec]; exact List.mem_append_left _ hkl0))
    obtain ⟨j, hj⟩ := Option.isSome_iff_exists.1 (hs tl htlmem)
    refine ⟨i, j, hi, hj, ?_⟩
    have hplt : ageD t k < ageD t tl := by
      rw [hdec] at hp
      exact (List.pairwise_append.1 hp).2.2 k hkl0 tl (by simp)
    rw [ageD, ageD, hi, hj] at hplt
    simpa using hplt
  · show ((runOps cap t).set o).orders.length = cap
    rw [hlen]
    exact hsize

/-- Witness for eviction of the least recently touched key: after setting
A and B in a 2-slot cache and getting A, a Set of C evicts exactly B. -/
theorem set_at_capacity_evicts_least_recent_witness :
    lookupA (((runOps 2 c3trace).set oC).orders) "B" = none ∧
    (lookupA (((runOps 2 c3trace).set oC).orders) "A").isSome ∧
    (lookupA (((runOps 2 c3trace).set oC).orders) "C").isSome := by
  obtain ⟨m, hm, hres, hage, hiff, hsz⟩ :=
    set_at_capacity_evicts_least_recent 2 (by decide) c3trace oC (by decide)
      (by decide)
  have hmB : m = "B" := by
    have h2 : (runOps 2 c3trace).lru.getLast? = some "B" := by decide
    rw [h2] at hm
    injection hm with hm1
    exact hm1.symm
  refine ⟨?_, ?_, ?_⟩
  · refine Option.not_isSome_iff_eq_none.1 ?_
    intro hsome
    rw [hiff "B", hmB] at hsome
    rcases hsome with h1 | ⟨_, h2⟩
    · exact absurd h1 (by decide)
    · exact h2 rfl
  · rw [hiff "A", hmB]
    exact Or.inr ⟨by decide, by decide⟩
  · rw [hiff "C", hmB]
    exact Or.inl rfl

/-- C3 counterexample: with capacity 0, a Set of a new identifier arrives
while exactly 0 (= capacity) identifiers are resident, yet no entry is
evicted: the identifier is inserted and the count rises to 1. -/
theorem set_at_zero_capacity_evicts_nothing_cex :
    (OrderCache.new 0).size = (OrderCache.new 0).maxSize ∧
    ((OrderCache.new 0).set oA).size = 1 ∧
    lookupA ((OrderCache.new 0).set oA).orders "A" = some oA := by
  decide

/-- C4 (amended: the capacity C is at least 1, and the relative recency
is reversed with respect to the claim).  Restore with more distinct
identifiers than the capacity clears all previous state and leaves
exactly the first C input identifiers resident, but the insertion loop
links each new node at the head, so the C-th inserted order is
most-recent and the first order of the sequence is least-recent, i.e.
the first eviction candidate. -/
theorem restore_keeps_first_capacity (c : OrderCache) (os : List Order)
    (hcap : 1 ≤ c.maxSize) (hn : c.maxSize < os.length)
    (hnd : (os.map Order.orderUID).Nodup) :
    (c.restore os).orders = (os.take c.maxSize).map (fun o => (o.orderUID, o)) ∧
    (∀ k, (lookupA (c.restore os).orders k).isSome ↔
      k ∈ (os.take c.maxSize).map Order.orderUID) ∧
    (c.restore os).lru = ((os.take c.maxSize).map Order.orderUID).reverse ∧
    (c.restore os).size = c.maxSize ∧
    (c.restore os).lru.getLast? = os.head?.map Order.orderUID := by
  have h0 : c.restore os =
      restoreLoop { orders := [], lru := [], maxSize := c.maxSize } os := rfl
  have hcl := restoreLoop_closed os
    { orders := [], lru := [], maxSize := c.maxSize } hnd
    (fun o _ => rfl) (by simpa using hcap)
  simp only [List.length_nil, Nat.sub_zero, List.nil_append, List.append_nil] at hcl
  rw [h0, hcl]
  have hkeys : keysA ((os.take c.maxSize).map fun o => (o.orderUID, o)) =
      (os.take c.maxSize).map Order.orderUID := by
    simp only [keysA, List.map_map]
    rfl
  refine ⟨rfl, fun k => ?_, rfl, ?_, ?_⟩
  · show (lookupA ((os.take c.maxSize).map fun o => (o.orderUID, o)) k).isSome ↔ _
    rw [← mem_keysA_iff, hkeys]
  · show ((os.take c.maxSize).map fun o => (o.orderUID, o)).length = c.maxSize
    simp [List.length_take]
    omega
  · show (((os.take c.maxSize).map Order.orderUID).reverse).getLast? = _
    rw [List.getLast?_reverse]
    cases os with
    | nil => simp at hn
    | cons o1 rest =>
      obtain ⟨c1, hc1⟩ : ∃ c1, c.maxSize = c1 + 1 := ⟨c.maxSize - 1, by omega⟩
      rw [hc1, List.take_succ_cons]
      simp

/-- Witness for restore: capacity 2, input A, B, C with distinct
identifiers leaves A and B resident, recency list B before A, and A as
the eviction candidate. -/
theorem restore_keeps_first_capacity_witness :
    ((OrderCache.new 2).restore [oA, oB, oC]).orders = [("A", oA), ("B", oB)] ∧
    ((OrderCache.new 2).restore [oA, oB, oC]).lru = ["B", "A"] ∧
    ((OrderCache.new 2).restore [oA, oB, oC]).size = 2 ∧
    ((OrderCache.new 2).restore [oA, oB, oC]).lru.getLast? = some "A" := by
  obtain ⟨h1, h2, h3, h4, h5⟩ := restore_keeps_first_capacity (OrderCache.new 2)
    [oA, oB, oC] (by decide) (by decide) (by decide)
  exact ⟨h1.trans (by decide), h3.trans (by decide), h4, h5.trans (by decide)⟩

/-- C4 counterexample: with capacity 2 and input sequence A, B, C the
code leaves the recency list with B most-recent and A least-recent, so a
following Set of a new identifier evicts A, the first order of the input,
while the claim predicts that the first order stays most-recent and the
second inserted order is evicted first; with capacity 0 the loop even
keeps one resident instead of none. -/
theorem restore_recency_reversed_cex :
    ((OrderCache.new 2).restore [oA, oB, oC]).lru = ["B", "A"] ∧
    lookupA ((((OrderCache.new 2).restore [oA, oB, oC]).set oD).orders) "A" = none ∧
    (lookupA ((((OrderCache.new 2).restore [oA, oB, oC]).set oD).orders) "B").isSome ∧
    ((OrderCache.new 0).restore [oA]).size = 1 := by
  decide

/-- C8 (amended: each Restore input must carry pairwise distinct
identifiers).  After every trace of Get, Set and Restore calls whose
Restore payloads have no duplicate identifiers, the recency list holds
exactly one node per resident key and no node for any other key, and
whenever any key is resident the tail node exists and is itself a
resident key, so the least-recent entry is removable in one step. -/
theorem recency_list_one_node_per_resident (cap : Nat) (t : List CacheCall)
    (h : ∀ os, CacheCall.restore os ∈ t → (os.map Order.orderUID).Nodup) :
    (∀ k, (lookupA (runCalls cap t).orders k).isSome →
      (runCalls cap t).lru.count k = 1) ∧
    (∀ k, lookupA (runCalls cap t).orders k = none →
      (runCalls cap t).lru.count k = 0) ∧
    ((runCalls cap t).orders ≠ [] → ∃ m, (runCalls cap t).lru.getLast? = some m ∧
      (lookupA (runCalls cap t).orders m).isSome) := by
  have hw := runCalls_wf cap t h
  obtain ⟨hnd, hmem, hknd⟩ := hw
  refine ⟨fun k hk => ?_, fun k hk => ?_, fun hne => ?_⟩
  · exact List.count_eq_one_of_mem hnd ((hmem k).2 hk)
  · refine List.count_eq_zero_of_not_mem ?_
    intro hm
    have := (hmem k).1 hm
    rw [hk] at this
    simp at this
  · obtain ⟨l0, tl, hdec⟩ := lru_decomp_of_orders_ne _ ⟨hnd, hmem, hknd⟩ hne
    refine ⟨tl, by rw [hdec]; simp, (hmem tl).1 (by rw [hdec]; simp)⟩

/-- Witness for the one-node-per-resident invariant on a trace with a
Set, a Restore of two distinct orders and a Get. -/
theorem recency_list_one_node_per_resident_witness :
    (runCalls 2 c8trace).lru.count "B" = 1 ∧
    (runCalls 2 c8trace).lru.count "A" = 0 ∧
    (runCalls 2 c8trace).lru.getLast? = some "C" ∧
    (lookupA (runCalls 2 c8trace).orders "C").isSome := by
  have hh := recency_list_one_node_per_resident 2 c8trace ?_
  · obtain ⟨m, hm1, hm2⟩ := hh.2.2 (by decide)
    have hg : (runCalls 2 c8trace).lru.getLast? = some "C" := by decide
    exact ⟨hh.1 "B" (by decide), hh.2.1 "A" (by decide), hg, by decide⟩
  · intro os hos
    simp only [c8trace, List.mem_cons, List.not_mem_nil, or_false] at hos
    rcases hos with h1 | h1 | h1 <;> first
      | (cases h1; decide)
      | cases h1

/-- C8 counterexample: Restore with the same identifier twice creates two
recency nodes for one resident key, violating the exactly-one-node
invariant as stated. -/
theorem restore_duplicate_nodes_cex :
    (lookupA ((OrderCache.new 2).restore [oA, oA]).orders "A").isSome ∧
    ((OrderCache.new 2).restore [oA, oA]).lru.count "A" = 2 := by
  decide

theorem firstBadItem_eq_none_iff (its : List Item) :
    firstBadItem its = none ↔ ∀ it ∈ its, ¬ itemBad it := by
  induction its with
  | nil => simp [firstBadItem]
  | cons it rest ih =>
    by_cases h : itemBad it
    · simp [firstBadItem, h]
    · simp only [firstBadItem, h, if_false]
      cases hr : firstBadItem rest with
      | none =>
        simp only [Option.map_none', true_iff]
        intro x hx
        rcases List.mem_cons.1 hx with rfl | hx1
        · exact h
        · exact (ih.1 hr) x hx1
      | some j =>
        simp only [Option.map_some']
        constructor
        · intro hc
          exact absurd hc (by simp)
        · intro hall
          have : firstBadItem rest = none := ih.2 fun x hx =>
            hall x (List.mem_cons_of_mem it hx)
          rw [this] at hr
          exact absurd hr (by simp)

theorem firstBadItem_eq_some (its : List Item) (i : Nat)
    (h : firstBadItem its = some i) :
    ∃ it, its.get? i = some it ∧ itemBad it := by
  induction its generalizing i with
  | nil => simp [firstBadItem] at h
  | cons it rest ih =>
    by_cases hb : itemBad it
    · simp [firstBadItem, hb] at h
      subst h
      exact ⟨it, rfl, hb⟩
    · simp only [firstBadItem, hb, if_false] at h
      cases hr : firstBadItem rest with
      | none =>
        rw [hr] at h
        simp at h
      | some j =>
        rw [hr] at h
        simp at h
        obtain ⟨x, hx1, hx2⟩ := ih j hr
        exact ⟨x, by rw [← h]; simpa using hx1, hx2⟩

set_option maxHeartbeats 1600000 in
/-- C6: validateOrder rejects exactly when at least one condition listed
by the claim holds, and every rejection value identifies the failing
field, field group, or item number it was produced for. -/
theorem validate_rejects_iff (now : Int) (o : Order) :
    ((validateOrder now o).isSome ↔ rejectCond now o) ∧
    (∀ e, validateOrder now o = some e → errCond now o e) := by
  unfold validateOrder
  by_cases h1 : o.dateCreated > now + 60
  · rw [if_pos h1]
    refine ⟨?_, fun e he => ?_⟩
    · simp only [Option.isSome_some, true_iff]
      unfold rejectCond
      tauto
    · injection he with he1
      subst he1
      exact h1
  rw [if_neg h1]
  by_cases h2 : o.orderUID = ""
  · rw [if_pos h2]
    refine ⟨?_, fun e he => ?_⟩
    · simp only [Option.isSome_some, true_iff]
      unfold rejectCond
      tauto
    · injection he with he1
      subst he1
      exact h2
  rw [if_neg h2]
  by_cases h3 : o.trackNumber = ""
  · rw [if_pos h3]
    refine ⟨?_, fun e he => ?_⟩
    · simp only [Option.isSome_some, true_iff]
      unfold rejectCond
      tauto
    · injection he with he1
      subst he1
      exact h3
  rw [if_neg h3]
  by_cases h4 : o.entry = ""
  · rw [if_pos h4]
    refine ⟨?_, fun e he => ?_⟩
    · simp only [Option.isSome_some, true_iff]
      unfold rejectCond
      tauto
    · injection he with he1
      subst he1
      exact h4
  rw [if_neg h4]
  by_cases h5 : o.locale = ""
  · rw [if_pos h5]
    refine ⟨?_, fun e he => ?_⟩
    · simp only [Option.isSome_some, true_iff]
      unfold rejectCond
      tauto
    · injection he with he1
      subst he1
      exact h5
  rw [if_neg h5]
  by_cases h6 : o.customerID = ""
  · rw [if_pos h6]
    refine ⟨?_, fun e he => ?_⟩
    · simp only [Option.isSome_some, true_iff]
      unfold rejectCond
      tauto
    · injection he with he1
      subst he1
      exact h6
  rw [if_neg h6]
  by_cases h7 : o.deliveryService = ""
  · rw [if_pos h7]
    refine ⟨?_, fun e he => ?_⟩
    · simp only [Option.isSome_some, true_iff]
      unfold rejectCond
      tauto
    · injection he with he1
      subst he1
      exact h7
  rw [if_neg h7]
  by_cases h8 : o.shardkey = ""
  · rw [if_pos h8]
    refine ⟨?_, fun e he => ?_⟩
    · simp only [Option.isSome_some, true_iff]
      unfold rejectCond
      tauto
    · injection he with he1
      subst he1
      exact h8
  rw [if_neg h8]
  by_cases h9 : o.oofShard = ""
  · rw [if_pos h9]
    refine ⟨?_, fun e he => ?_⟩
    · simp only [Option.isSome_some, true_iff]
      unfold rejectCond
      tauto
    · injection he with he1
      subst he1
      exact h9
  rw [if_neg h9]
  by_cases h10 : o.delivery.name = "" ∨ o.delivery.phone = "" ∨ o.delivery.zip = "" ∨
      o.delivery.city = "" ∨ o.delivery.address = "" ∨ o.delivery.region = "" ∨
      o.delivery.email = ""
  · rw [if_pos h10]
    refine ⟨?_, fun e he => ?_⟩
    · simp only [Option.isSome_some, true_iff]
      unfold rejectCond
      tauto
    · injection he with he1
      subst he1
      exact h10
  rw [if_neg h10]
  by_cases h11 : o.payment.transaction = "" ∨ o.payment.currency = "" ∨
      o.payment.provider = "" ∨ o.payment.bank = ""
  · rw [if_pos h11]
    refine ⟨?_, fun e he => ?_⟩
    · simp only [Option.isSome_some, true_iff]
      unfold rejectCond
      tauto
    · injection he with he1
      subst he1
      exact h11
  rw [if_neg h11]
  by_cases h12 : o.payment.amount ≤ 0 ∨ o.payment.paymentDt ≤ 0 ∨
      o.payment.deliveryCost < 0 ∨ o.payment.goodsTotal ≤ 0 ∨
      o.payment.customFee < 0
  · rw [if_pos h12]
    refine ⟨?_, fun e he => ?_⟩
    · simp only [Option.isSome_some, true_iff]
      unfold rejectCond
      tauto
    · injection he with he1
      subst he1
      exact h12
  rw [if_neg h12]
  by_cases h13 : o.items = []
  · rw [if_pos h13]
    refine ⟨?_, fun e he => ?_⟩
    · simp only [Option.isSome_some, true_iff]
      unfold rejectCond
      tauto
    · injection he with he1
      subst he1
      exact h13
  rw [if_neg h13]
  cases hfb : firstBadItem o.items with
  | some i =>
    obtain ⟨it, hget, hbad⟩ := firstBadItem_eq_some o.items i hfb
    simp only [hfb]
    refine ⟨?_, fun e he => ?_⟩
    · simp only [Option.isSome_some, true_iff]
      unfold rejectCond
      have hmem : it ∈ o.items := List.get?_mem hget
      tauto
    · injection he with he1
      subst he1
      show ∃ x, o.items.get? (i + 1 - 1) = some x ∧ itemBad x
      exact ⟨it, by simpa using hget, hbad⟩
  | none =>
    have hnb : ∀ it ∈ o.items, ¬ itemBad it :=
      (firstBadItem_eq_none_iff o.items).1 hfb
    simp only [hfb]
    refine ⟨?_, fun e he => ?_⟩
    · have hnr : ¬ rejectCond now o := by
        unfold rejectCond
        rintro (hx | hx | hx | hx | hx | hx | hx | hx | hx | hx | hx | hx | hx |
          ⟨it, hit, hbad⟩)
        · exact h1 hx
        · exact h2 hx
        · exact h3 hx
        · exact h4 hx
        · exact h5 hx
        · exact h6 hx
        · exact h7 hx
        · exact h8 hx
        · exact h9 hx
        · exact h10 hx
        · exact h11 hx
        · exact h12 hx
        · exact h13 hx
        · exact hnb it hit hbad
      constructor
      · intro hco
        simp at hco
      · intro hr
        exact absurd hr hnr
    · exact Option.noConfusion he

/-- Witness for the validator: an order whose only defect is the empty
identifier satisfies the claimed rejection condition with the identifier
named, and a fully valid order satisfies none of the conditions. -/
theorem validate_rejects_iff_witness :
    rejectCond 0 (mkOrder "") ∧
    errCond 0 (mkOrder "") ValErr.missingOrderUID ∧
    ¬ rejectCond 0 oA :=
  ⟨(validate_rejects_iff 0 (mkOrder "")).1.1 (by decide),
   (validate_rejects_iff 0 (mkOrder "")).2 ValErr.missingOrderUID (by decide),
   fun hr => absurd ((validate_rejects_iff 0 oA).1.2 hr) (by decide)⟩

/-- C9 counterexample: validateOrder reads the ambient clock through
time.Now, so two invocations on the same order value made at different
clock instants can return different results; here the first invocation
rejects the order as future-dated and a later one accepts it. -/
theorem validate_clock_dependent_cex :
    validateOrder 0 oFuture = some ValErr.futureDate ∧
    validateOrder 50 oFuture = none ∧
    validateOrder 0 oFuture ≠ validateOrder 50 oFuture := by
  decide

/-- C9 (amended): validateOrder is a pure function of the clock reading
together with the order value — the embedding is a mathematical function,
so equal arguments give equal structured results and nothing is mutated —
and the clock matters only through the future-timestamp check: whenever
the creation timestamp is within one minute of both clock readings, the
results of the two invocations coincide. -/
theorem validate_pure_given_clock (now1 now2 : Int) (o : Order)
    (h1 : o.dateCreated ≤ now1 + 60) (h2 : o.dateCreated ≤ now2 + 60) :
    validateOrder now1 o = validateOrder now2 o := by
  unfold validateOrder
  rw [if_neg (show ¬ o.dateCreated > now1 + 60 by omega),
    if_neg (show ¬ o.dateCreated > now2 + 60 by omega)]

/-- Witness for clock-independent validation within the tolerance. -/
theorem validate_pure_given_clock_witness :
    validateOrder 0 oA = validateOrder 10 oA :=
  validate_pure_given_clock 0 10 oA (by decide) (by decide)

/-- C1: for every inbound message, a decode failure acknowledges without
touching store or cache; a validation rejection acknowledges without
touching store or cache; a persistence failure leaves store and cache
untouched and does not acknowledge; a persistence success performs the
store write, then the cache set, then the acknowledgment, in that order. -/
theorem ingest_message_cases (dec : String → Option Order)
    (ins : Store → Order → Option Store) (now : Int) (st : Store)
    (c : OrderCache) (m : String) :
    (dec m = none → processMsg dec ins now st c m = (st, c, [MsgEv.ack])) ∧
    (∀ o e, dec m = some o → validateOrder now o = some e →
      processMsg dec ins now st c m = (st, c, [MsgEv.ack])) ∧
    (∀ o, dec m = some o → validateOrder now o = none → ins st o = none →
      processMsg dec ins now st c m = (st, c, [])) ∧
    (∀ o st1, dec m = some o → validateOrder now o = none → ins st o = some st1 →
      processMsg dec ins now st c m =
        (st1, c.set o, [MsgEv.storeWrite, MsgEv.cacheSet, MsgEv.ack])) := by
  refine ⟨fun hd => ?_, fun o e hd hv => ?_, fun o hd hv hi => ?_,
    fun o st1 hd hv hi => ?_⟩
  · simp [processMsg, hd]
  · simp [processMsg, hd, hv]
  · simp [processMsg, hd, hv, hi]
  · simp [processMsg, hd, hv, hi]

/-- Witness running one message through each of the four pipeline exits. -/
theorem ingest_message_cases_witness :
    processMsg decTwo insFailA 0 emptyStore (OrderCache.new 2) "junk" =
      (emptyStore, OrderCache.new 2, [MsgEv.ack]) ∧
    processMsg decTwo insFailA 0 emptyStore (OrderCache.new 2) "mBadUid" =
      (emptyStore, OrderCache.new 2, [MsgEv.ack]) ∧
    processMsg decTwo insFailA 0 emptyStore (OrderCache.new 2) "mA" =
      (emptyStore, OrderCache.new 2, []) ∧
    processMsg decTwo insFailA 0 emptyStore (OrderCache.new 2) "mB" =
      (insertOrderDb emptyStore oB, (OrderCache.new 2).set oB,
        [MsgEv.storeWrite, MsgEv.cacheSet, MsgEv.ack]) :=
  ⟨(ingest_message_cases decTwo insFailA 0 emptyStore (OrderCache.new 2)
      "junk").1 (by decide),
   (ingest_message_cases decTwo insFailA 0 emptyStore (OrderCache.new 2)
      "mBadUid").2.1 (mkOrder "") ValErr.missingOrderUID (by decide) (by decide),
   (ingest_message_cases decTwo insFailA 0 emptyStore (OrderCache.new 2)
      "mA").2.2.1 oA (by decide) (by decide) (by decide),
   (ingest_message_cases decTwo insFailA 0 emptyStore (OrderCache.new 2)
      "mB").2.2.2 oB (insertOrderDb emptyStore oB) (by decide) (by decide)
      (by decide)⟩

/-- C10: a message whose persistence fails is skipped without state
change or acknowledgment and the batch continues; concretely, in a batch
whose first message fails persistence and whose second succeeds, the
acknowledged offsets are exactly the later offset, which lies past the
failed one. -/
theorem claim_continues_after_persist_failure :
    (∀ (dec : String → Option Order) (ins : Store → Order → Option Store)
      (now : Int) (st : Store) (c : OrderCache) (off : Nat) (m : String)
      (rest : List (Nat × String)) (o : Order), dec m = some o →
      validateOrder now o = none → ins st o = none →
      runClaim dec ins now st c ((off, m) :: rest) =
        runClaim dec ins now st c rest) ∧
    runClaim decTwo insFailA 0 emptyStore (OrderCache.new 2)
      [(0, "mA"), (1, "mB")] =
      (insertOrderDb emptyStore oB, (OrderCache.new 2).set oB, [1]) ∧
    (0 : Nat) ∉ [1] ∧ (0 : Nat) < 1 := by
  refine ⟨fun dec ins now st c off m rest o hd hv hi => ?_, by decide, by decide,
    by decide⟩
  simp [runClaim, processMsg, hd, hv, hi]

/-- Witness for the continuation rule at the concrete failing message. -/
theorem claim_continues_after_persist_failure_witness :
    runClaim decTwo insFailA 0 emptyStore (OrderCache.new 2) [(0, "mA")] =
      runClaim decTwo insFailA 0 emptyStore (OrderCache.new 2) [] :=
  claim_continues_after_persist_failure.1 decTwo insFailA 0 emptyStore
    (OrderCache.new 2) 0 "mA" [] oA (by decide) (by decide) (by decide)

/-- C5: for every lookup, a cache hit answers from the cache without a
store fetch (only recency changes, the resident entries stay put); a miss
fetches by key and on success backfills the cache and returns the fetched
order; a store not-found is reported as the distinct not-found outcome
with the cache untouched; an empty identifier is the distinct bad-request
outcome. -/
theorem read_path_cases (store : String → Option Order) (c : OrderCache)
    (q p uid : String) (huid : uid = if q = "" then trimOrderPath p else q) :
    (uid = "" → getOrderHandler store c q p = (.badRequest, c, false)) ∧
    (∀ o, uid ≠ "" → lookupA c.orders uid = some o →
      getOrderHandler store c q p = (.ok o, (c.get uid).2, false) ∧
      (c.get uid).2.orders = c.orders) ∧
    (∀ o, uid ≠ "" → lookupA c.orders uid = none → store uid = some o →
      getOrderHandler store c q p = (.ok o, c.set o, true)) ∧
    (uid ≠ "" → lookupA c.orders uid = none → store uid = none →
      getOrderHandler store c q p = (.notFound, c, true)) ∧
    (LookupRes.badRequest ≠ LookupRes.notFound ∧
      ∀ o, LookupRes.ok o ≠ LookupRes.notFound) := by
  subst huid
  refine ⟨fun he => ?_, fun o hne hres => ?_, fun o hne hres hst => ?_,
    fun hne hres hst => ?_, fun h => LookupRes.noConfusion h,
    fun o h => LookupRes.noConfusion h⟩
  · simp [getOrderHandler, he]
  · exact ⟨by simp [getOrderHandler, hne, OrderCache.get, hres], get_snd_orders c _⟩
  · simp [getOrderHandler, hne, OrderCache.get, hres, hst]
  · simp [getOrderHandler, hne, OrderCache.get, hres, hst]

/-- Witness exercising all four read-path outcomes on concrete data. -/
theorem read_path_cases_witness :
    getOrderHandler storeB cacheA "" "/order/" = (.badRequest, cacheA, false) ∧
    getOrderHandler storeB cacheA "A" "" = (.ok oA, (cacheA.get "A").2, false) ∧
    getOrderHandler storeB cacheA "B" "" = (.ok oB, cacheA.set oB, true) ∧
    getOrderHandler storeB cacheA "Z" "" = (.notFound, cacheA, true) :=
  ⟨(read_path_cases storeB cacheA "" "/order/" "" (by decide)).1 rfl,
   ((read_path_cases storeB cacheA "A" "" "A" (by decide)).2.1 oA (by decide)
     (by decide)).1,
   (read_path_cases storeB cacheA "B" "" "B" (by decide)).2.2.1 oB (by decide)
     (by decide) (by decide),
   (read_path_cases storeB cacheA "Z" "" "Z" (by decide)).2.2.2.1 (by decide)
     (by decide) (by decide)⟩

/-!
Idempotence and row counting for the insert-or-ignore store.
-/

theorem insertOrSkip_idem {α : Type} (hit : α → Bool) (t : List α) (r : α)
    (hr : hit r = true) :
    insertOrSkip hit (insertOrSkip hit t r) r = insertOrSkip hit t r := by
  unfold insertOrSkip
  by_cases h : t.any hit
  · simp [h]
  · simp only [h, if_false]
    rw [if_pos]
    simp [hr]

theorem any_insertOrSkip_mono {α : Type} (hit p : α → Bool) (t : List α)
    (r : α) (h : t.any p = true) : (insertOrSkip hit t r).any p = true := by
  unfold insertOrSkip
  split
  · exact h
  · simp [h]

theorem countP_insertOrSkip_fresh {α : Type} (hit : α → Bool) (t : List α)
    (r : α) (h : t.any hit = false) :
    insertOrSkip hit t r = t ++ [r] := by
  simp [insertOrSkip, h]

theorem itemsFold_any_mono (uid : String) (p : ItemRow → Bool)
    (items : List Item) :
    ∀ t, t.any p = true → (itemsFold uid t items).any p = true := by
  induction items with
  | nil => exact fun t h => h
  | cons it rest ih =>
    intro t h
    exact ih _ (any_insertOrSkip_mono _ p t _ h)

theorem itemsFold_any (uid : String) (items : List Item) :
    ∀ (t : List ItemRow) (it : Item), it ∈ items →
      (itemsFold uid t items).any (itemHit uid it.chrtID) = true := by
  induction items with
  | nil => simp
  | cons it0 rest ih =>
    intro t it hmem
    rcases List.mem_cons.1 hmem with rfl | hmem1
    · show (itemsFold uid (insertOrSkip (itemHit uid it.chrtID) t
        (toItemRow uid it)) rest).any (itemHit uid it.chrtID) = true
      have hbase : (insertOrSkip (itemHit uid it.chrtID) t
          (toItemRow uid it)).any (itemHit uid it.chrtID) = true := by
        unfold insertOrSkip
        split
        · assumption
        · simp [itemHit, toItemRow]
      exact itemsFold_any_mono uid _ rest _ hbase
    · exact ih _ it hmem1

theorem itemsFold_skip (uid : String) (items : List Item) :
    ∀ (t : List ItemRow),
      (∀ it ∈ items, t.any (itemHit uid it.chrtID) = true) →
      itemsFold uid t items = t := by
  induction items with
  | nil => intro t _; rfl
  | cons it0 rest ih =>
    intro t h
    show itemsFold uid (insertOrSkip (itemHit uid it0.chrtID) t
      (toItemRow uid it0)) rest = t
    have h0 : insertOrSkip (itemHit uid it0.chrtID) t (toItemRow uid it0) = t := by
      unfold insertOrSkip
      rw [if_pos (h it0 (List.mem_cons_self _ _))]
    rw [h0]
    exact ih t fun it hm => h it (List.mem_cons_of_mem _ hm)

theorem itemsFold_idem (uid : String) (t : List ItemRow) (items : List Item) :
    itemsFold uid (itemsFold uid t items) items = itemsFold uid t items :=
  itemsFold_skip uid items _ fun it hm => itemsFold_any uid items t it hm

theorem insertOrderDb_idem (s : Store) (o : Order) :
    insertOrderDb (insertOrderDb s o) o = insertOrderDb s o := by
  unfold insertOrderDb
  simp only [Store.mk.injEq]
  refine ⟨?_, ?_, ?_, ?_⟩
  · exact insertOrSkip_idem _ _ _ (by simp [toOrdersRow])
  · exact insertOrSkip_idem _ _ _ (by simp [toDeliveryRow])
  · exact insertOrSkip_idem _ _ _ (by simp [toPaymentRow])
  · exact itemsFold_idem o.orderUID s.itemsT o.items

theorem lookup_set_self (c : OrderCache) (o : Order) :
    lookupA (c.set o).orders o.orderUID = some o := by
  cases hl : lookupA c.orders o.orderUID with
  | some w =>
    rw [set_eq_resident c o (by simp [hl])]
    exact lookupA_insertA_self _ _ _
  | none =>
    by_cases hfull : c.maxSize ≤ c.orders.length
    · rw [set_eq_fresh_full c o hl hfull]
      exact lookupA_insertA_self _ _ _
    · rw [set_eq_fresh_avail c o hl hfull]
      exact lookupA_insertA_self _ _ _

theorem any_eq_false_of_countP_zero {α : Type} (p : α → Bool) (t : List α)
    (h : t.countP p = 0) : t.any p = false := by
  rw [List.any_eq_false]
  intro x hx
  have := List.countP_eq_zero.1 h x hx
  simpa using this

theorem countP_insertOrSkip_self {α : Type} (hit : α → Bool) (t : List α)
    (r : α) (h0 : t.countP hit = 0) (hr : hit r = true) :
    (insertOrSkip hit t r).countP hit = 1 := by
  rw [countP_insertOrSkip_fresh _ _ _ (any_eq_false_of_countP_zero _ _ h0),
    List.countP_append, h0]
  simp [hr]

theorem itemsFold_countP_of_any (uid : String) (items : List Item) :
    ∀ (t : List ItemRow) (ch : Nat), t.any (itemHit uid ch) = true →
      (itemsFold uid t items).countP (itemHit uid ch) =
        t.countP (itemHit uid ch) := by
  induction items with
  | nil => intro t ch _; rfl
  | cons it rest ih =>
    intro t ch hany
    show (itemsFold uid (insertOrSkip (itemHit uid it.chrtID) t
      (toItemRow uid it)) rest).countP (itemHit uid ch) = _
    by_cases hstep : t.any (itemHit uid it.chrtID) = true
    · rw [show insertOrSkip (itemHit uid it.chrtID) t (toItemRow uid it) = t from
        by simp [insertOrSkip, hstep]]
      exact ih t ch hany
    · have hanyf : t.any (itemHit uid it.chrtID) = false := by simpa using hstep
      rw [countP_insertOrSkip_fresh _ _ _ hanyf]
      have hchne : (it.chrtID == ch) = false := by
        by_cases hc : it.chrtID = ch
        · subst hc
          rw [hany] at hanyf
          exact absurd hanyf (by simp)
        · simpa using hc
      rw [ih (t ++ [toItemRow uid it]) ch (by simp [hany]), List.countP_append]
      simp [List.countP_cons, itemHit, toItemRow, hchne]

theorem itemsFold_countP_of_zero (uid : String) (items : List Item) :
    ∀ (t : List ItemRow) (ch : Nat), t.countP (itemHit uid ch) = 0 →
      (itemsFold uid t items).countP (itemHit uid ch) =
        if items.any (fun it => it.chrtID == ch) then 1 else 0 := by
  induction items with
  | nil =>
    intro t ch h0
    simpa using h0
  | cons it rest ih =>
    intro t ch h0
    have hanyt : t.any (itemHit uid ch) = false :=
      any_eq_false_of_countP_zero _ _ h0
    show (itemsFold uid (insertOrSkip (itemHit uid it.chrtID) t
      (toItemRow uid it)) rest).countP (itemHit uid ch) = _
    by_cases hc : it.chrtID = ch
    · subst hc
      rw [countP_insertOrSkip_fresh _ _ _ hanyt]
      have hone : (t ++ [toItemRow uid it]).countP (itemHit uid it.chrtID) = 1 := by
        rw [List.countP_append, h0]
        simp [List.countP_cons, itemHit, toItemRow]
      rw [itemsFold_countP_of_any uid rest _ _
        (by simp [itemHit, toItemRow]), hone]
      simp
    · have hcb : (it.chrtID == ch) = false := by simpa using hc
      by_cases hstep : t.any (itemHit uid it.chrtID) = true
      · rw [show insertOrSkip (itemHit uid it.chrtID) t (toItemRow uid it) = t from
          by simp [insertOrSkip, hstep]]
        rw [ih t ch h0]
        simp [List.any_cons, hcb]
      · have hsf : t.any (itemHit uid it.chrtID) = false := by simpa using hstep
        rw [countP_insertOrSkip_fresh _ _ _ hsf]
        have h0a : (t ++ [toItemRow uid it]).countP (itemHit uid ch) = 0 := by
          rw [List.countP_append, h0]
          simp [List.countP_cons, itemHit, toItemRow, hcb]
        rw [ih _ ch h0a]
        simp [List.any_cons, hcb]

/-- C7: ingesting the same valid record twice is idempotent — the second
transactional upsert is a no-op and not an error — and for a store
holding no prior rows for the identifier, exactly one orders row, one
delivery row, one payment row and one items row per catalog id remain,
while the cache entry for the identifier holds the latest ingested
value and the message is acknowledged both times. -/
theorem ingest_idempotent (st : Store) (o : Order) (now : Int) (m : String)
    (dec : String → Option Order) (hd : dec m = some o)
    (hv : validateOrder now o = none)
    (hordr : st.ordersT.countP (fun r => r.orderUID == o.orderUID) = 0)
    (hdel : st.deliveryT.countP (fun r => r.orderUID == o.orderUID) = 0)
    (hpay : st.paymentT.countP (fun r => r.orderUID == o.orderUID) = 0)
    (hitm : st.itemsT.countP (fun r => r.orderUID == o.orderUID) = 0) :
    insertOrderDb (insertOrderDb st o) o = insertOrderDb st o ∧
    (insertOrderDb st o).ordersT.countP (fun r => r.orderUID == o.orderUID) = 1 ∧
    (insertOrderDb st o).deliveryT.countP (fun r => r.orderUID == o.orderUID) = 1 ∧
    (insertOrderDb st o).paymentT.countP (fun r => r.orderUID == o.orderUID) = 1 ∧
    (∀ it ∈ o.items,
      (insertOrderDb st o).itemsT.countP (itemHit o.orderUID it.chrtID) = 1) ∧
    (∀ c : OrderCache,
      processMsg dec (fun s2 o2 => some (insertOrderDb s2 o2)) now st c m =
        (insertOrderDb st o, c.set o,
          [MsgEv.storeWrite, MsgEv.cacheSet, MsgEv.ack]) ∧
      processMsg dec (fun s2 o2 => some (insertOrderDb s2 o2)) now
          (insertOrderDb st o) (c.set o) m =
        (insertOrderDb st o, (c.set o).set o,
          [MsgEv.storeWrite, MsgEv.cacheSet, MsgEv.ack]) ∧
      lookupA ((c.set o).set o).orders o.orderUID = some o) := by
  have hitm0 : ∀ ch, st.itemsT.countP (itemHit o.orderUID ch) = 0 := by
    intro ch
    rw [List.countP_eq_zero] at hitm ⊢
    intro r hr hq
    refine hitm r hr ?_
    simp only [itemHit, Bool.and_eq_true] at hq
    simp [hq.1]
  refine ⟨insertOrderDb_idem st o, ?_, ?_, ?_, fun it hmem => ?_, fun c => ?_⟩
  · exact countP_insertOrSkip_self _ _ _ hordr (by simp [toOrdersRow])
  · exact countP_insertOrSkip_self _ _ _ hdel (by simp [toDeliveryRow])
  · exact countP_insertOrSkip_self _ _ _ hpay (by simp [toPaymentRow])
  · show (itemsFold o.orderUID st.itemsT o.items).countP
      (itemHit o.orderUID it.chrtID) = 1
    rw [itemsFold_countP_of_zero o.orderUID o.items st.itemsT it.chrtID
      (hitm0 it.chrtID)]
    rw [if_pos]
    rw [List.any_eq_true]
    exact ⟨it, hmem, by simp⟩
  · refine ⟨by simp [processMsg, hd, hv], ?_, lookup_set_self (c.set o) o⟩
    simp [processMsg, hd, hv, insertOrderDb_idem st o]

/-- Witness for idempotent ingestion of order A into the empty store. -/
theorem ingest_idempotent_witness :
    insertOrderDb (insertOrderDb emptyStore oA) oA = insertOrderDb emptyStore oA ∧
    (insertOrderDb emptyStore oA).ordersT.countP
      (fun r => r.orderUID == oA.orderUID) = 1 ∧
    (insertOrderDb emptyStore oA).itemsT.countP
      (itemHit oA.orderUID itOk.chrtID) = 1 ∧
    lookupA (((OrderCache.new 2).set oA).set oA).orders oA.orderUID = some oA := by
  obtain ⟨h1, h2, h3, h4, h5, h6⟩ := ingest_idempotent emptyStore oA 0 "mA"
    decTwo (by decide) (by decide) (by decide) (by decide) (by decide) (by decide)
  exact ⟨h1, h2, h5 itOk (by decide), (h6 (OrderCache.new 2)).2.2⟩
